import Mathlib

/-!
Verification of the driftwatcher core against its specification.

The development shallowly embeds the Rust sources (`frontmatter.rs`,
`hash.rs`, `paths.rs`, `status.rs`, `commands/check.rs`,
`commands/report.rs`).  Text is modelled as `List Char` (Rust byte
offsets into valid UTF-8 become character offsets; all delimiters the
code searches for are ASCII).  Filesystem state is an explicit record of
query functions, SHA-256 is modelled as an ideal (injective) digest of
the byte stream fed to the hashing context, and Rust panics are made
explicit as a dedicated result constructor.
-/

namespace Driftwatcher

/-- Character list of a string literal; all embedded text operates on `List Char`. -/
def chars (s : String) : List Char := s.data

/-- Newline character, the line separator used throughout the sources. -/
def nl : Char := '\n'

/-- The frontmatter delimiter `---` as characters. -/
def dashes : List Char := ['-', '-', '-']

/-- Model of Rust `str::find` for a literal needle: index of the first
occurrence of `m` in `x`, in characters. -/
def findSub (x m : List Char) : Option Nat :=
  match x with
  | [] => if m.isPrefixOf [] then some 0 else none
  | c :: t => if m.isPrefixOf (c :: t) then some 0 else (findSub t m).map (· + 1)

/-- Model of Rust `str::rfind` for a literal needle: index of the last
occurrence of `m` in `x`. -/
def rfindSub (x m : List Char) : Option Nat :=
  match x with
  | [] => if m.isPrefixOf [] then some 0 else none
  | c :: t =>
    match rfindSub t m with
    | some i => some (i + 1)
    | none => if m.isPrefixOf (c :: t) then some 0 else none

/-- Model of Rust `str::contains` for a literal needle. -/
def containsSub (x m : List Char) : Bool :=
  match x with
  | [] => m.isPrefixOf []
  | c :: t => m.isPrefixOf (c :: t) || containsSub t m

/-- Model of Rust string slicing `&s[a..b]`: `none` models the panic on
an invalid range (start past end, or end out of bounds). -/
def slice? (x : List Char) (a b : Nat) : Option (List Char) :=
  if a ≤ b ∧ b ≤ x.length then some ((x.take b).drop a) else none

/-- Split on `'\n'`; inverse of joining with `'\n'` separators.  This is
the line decomposition used by the YAML-subset model. -/
def splitNL : List Char → List (List Char)
  | [] => [[]]
  | c :: t =>
    if c = nl then [] :: splitNL t
    else
      match splitNL t with
      | [] => [[c]]
      | p :: ps => (c :: p) :: ps

/-- Join lines with `'\n'` separators (no trailing newline). -/
def interNL : List (List Char) → List Char
  | [] => []
  | [l] => l
  | l :: l' :: ls => l ++ nl :: interNL (l' :: ls)

/-- Each line followed by a newline: the shape of a frontmatter body in a
document whose block is rendered line by line. -/
def blockOf : List (List Char) → List Char
  | [] => []
  | l :: ls => l ++ nl :: blockOf ls

/-- Each line preceded by a newline; `nl :: blockOf ls = flLines ls ++ [nl]`. -/
def flLines : List (List Char) → List Char
  | [] => []
  | l :: ls => nl :: (l ++ flLines ls)

/-- Leading/trailing-whitespace trimming, the model of Rust `str::trim_start`.
Lean's `Char.isWhitespace` covers the ASCII whitespace the tool emits. -/
def trimL (l : List Char) : List Char := l.dropWhile Char.isWhitespace

/-- Model of Rust `str::trim_end`. -/
def trimR (l : List Char) : List Char := (l.reverse.dropWhile Char.isWhitespace).reverse

/-- Model of Rust `str::trim`. -/
def trimB (l : List Char) : List Char := trimR (trimL l)

/-- A single watch entry (pattern -> hash), from `frontmatter.rs`. -/
structure WatchEntry where
  pattern : List Char
  hash : Option (List Char)
deriving DecidableEq

/-- Parsed driftwatcher frontmatter, from `frontmatter.rs`: the entries, the
raw YAML between the delimiters, and the offset just past the closing
delimiter. -/
structure Frontmatter where
  entries : List WatchEntry
  raw_yaml : List Char
  end_pos : Nat
deriving DecidableEq

/-- Error cases surfaced by the frontmatter engine (`anyhow` messages in the
source, collapsed to their distinct sites). -/
inductive FmErr where
  | malformedBlock
  | yamlErr
  | noFrontmatter
  | dwKeyMissing
  | entryNotFound
deriving DecidableEq

/-- Result of a Rust function that may also panic: `panics` models an actual
Rust panic (an out-of-range string slice or a failed `unwrap`). -/
inductive PRes (α : Type) where
  | ok (a : α)
  | err (e : FmErr)
  | panics
deriving DecidableEq

/-- Blank line: spaces only (skipped by the modelled YAML reader). -/
def isBlankL (l : List Char) : Bool := l.all (fun c => c = ' ')

/-- Indentation (leading spaces) of a YAML line. -/
def entryIndent (l : List Char) : Nat := (l.takeWhile (fun c => c = ' ')).length

/-- Line that looks like a block-sequence item (`- ` after indentation). -/
def isEntryish (l : List Char) : Bool :=
  (chars "- ").isPrefixOf (l.dropWhile (fun c => c = ' '))

/-- Top-level mapping line other than the reserved key (`key: value`). -/
def isOtherLine (l : List Char) : Bool :=
  !(l.head? == some ' ') && l.contains ':'

/-- Value part of an entry line: text after the colon, leading spaces
stripped; empty means a null hash. -/
def valOf (key rest : List Char) : Option WatchEntry :=
  match rest.head? with
  | some ':' =>
    let v := (rest.drop 1).dropWhile (fun c => c = ' ')
    if key = [] then none
    else some ⟨key, if v = [] then none else some v⟩
  | _ => none

/-- Modelled from the behaviour of `serde_yaml` on one block-sequence item
`- KEY: VALUE` with double-quoted, single-quoted or bare key. -/
def entryOfLine (l : List Char) : Option WatchEntry :=
  let t := l.dropWhile (fun c => c = ' ')
  if (chars "- ").isPrefixOf t then
    let u := t.drop 2
    match u.head? with
    | some '"' =>
      match findSub (u.drop 1) ['"'] with
      | none => none
      | some q => valOf ((u.drop 1).take q) (u.drop (q + 2))
    | some '\'' =>
      match findSub (u.drop 1) ['\''] with
      | none => none
      | some q => valOf ((u.drop 1).take q) (u.drop (q + 2))
    | _ =>
      match findSub u [':'] with
      | none => none
      | some q => valOf (u.take q) (u.drop q)
  else none

/-- Entry lines under the reserved key must share one indentation. -/
def parseEntriesAux (ind : Nat) : List (List Char) → Option (List WatchEntry)
  | [] => some []
  | l :: rest =>
    if entryIndent l = ind then
      match entryOfLine l, parseEntriesAux ind rest with
      | some e, some es => some (e :: es)
      | _, _ => none
    else none

def parseEntryLinesTop : List (List Char) → Option (List WatchEntry)
  | [] => some []
  | l :: rest => parseEntriesAux (entryIndent l) (l :: rest)

/-- Modelled from the behaviour of `serde_yaml` deserializing the
`YamlFrontmatter` struct of `frontmatter.rs`, restricted to the flat
block subset the tool reads and writes: a reserved `driftwatcher:` key
followed by its sequence items at one indentation, any other top-level
`key: value` lines kept opaque, duplicate reserved keys rejected.
Outer `none` is a YAML parse error; inner `none` means the reserved key
is absent. -/
def yamlAfter : List (List Char) → Option Unit
  | [] => some ()
  | l :: rest =>
    if isBlankL l then yamlAfter rest
    else if l = chars "driftwatcher:" then none
    else if isOtherLine l then yamlAfter rest
    else none

def yamlScan : List (List Char) → Option (Option (List WatchEntry))
  | [] => some none
  | l :: rest =>
    if isBlankL l then yamlScan rest
    else if l = chars "driftwatcher:" then
      match parseEntryLinesTop (rest.takeWhile isEntryish),
          yamlAfter (rest.dropWhile isEntryish) with
      | some ents, some () => some (some ents)
      | _, _ => none
    else if isOtherLine l then yamlScan rest
    else none

def yamlParse (y : List Char) : Option (Option (List WatchEntry)) :=
  yamlScan (splitNL y)

/-- Model of `frontmatter::parse`: delimiter scan by character offsets,
then the YAML subset reader; `panics` captures the out-of-range slice
`&rest[1..close_pos]` when `close_pos = 0`. -/
def parse (content : List Char) : PRes (Option Frontmatter) :=
  if (chars "---").isPrefixOf content then
    match findSub (content.drop 3) (chars "\n---") with
    | none => .err .malformedBlock
    | some closePos =>
      match slice? (content.drop 3) 1 closePos with
      | none => .panics
      | some yamlContent =>
        match yamlParse yamlContent with
        | none => .err .yamlErr
        | some dw =>
          .ok (some { entries := dw.getD [], raw_yaml := yamlContent,
                      end_pos := 3 + closePos + 4 })
  else .ok none

/-- Model of `Frontmatter::has_driftwatcher`. -/
def Frontmatter.has_driftwatcher (fm : Frontmatter) : Bool :=
  !fm.entries.isEmpty || containsSub fm.raw_yaml (chars "driftwatcher:")

/-- Model of `frontmatter::add_empty_frontmatter`. -/
def add_empty_frontmatter (content : List Char) : List Char :=
  chars "---\ndriftwatcher:\n---\n" ++ content

/-- Model of `frontmatter::add_driftwatcher_to_existing`; the `unwrap` on the
`rfind` is a potential panic. -/
def add_driftwatcher_to_existing (content : List Char) : PRes (List Char) :=
  match parse content with
  | .panics => .panics
  | .err e => .err e
  | .ok none => .err .noFrontmatter
  | .ok (some fm) =>
    match rfindSub (content.take fm.end_pos) (chars "\n---") with
    | none => .panics
    | some p =>
      .ok (content.take p ++ chars "\ndriftwatcher:\n---" ++ content.drop fm.end_pos)

/-- Insertion step of `frontmatter::add_entry` once the block is known to be
tracked: splice a new canonical entry line right after the first
`driftwatcher:` occurrence.  Out-of-range slices are panics. -/
def add_entry_inner (content pattern hash : List Char) : PRes (List Char) :=
  match findSub content (chars "driftwatcher:") with
  | none => .err .dwKeyMissing
  | some dwPos =>
    let lineEnd :=
      match findSub (content.drop dwPos) [nl] with
      | some p => dwPos + p
      | none => content.length
    if lineEnd + 1 ≤ content.length then
      .ok (content.take (lineEnd + 1) ++
        (chars "  - \"" ++ pattern ++ chars "\": " ++ hash ++ [nl]) ++
        content.drop (lineEnd + 1))
    else .panics

/-- Model of `frontmatter::add_entry`.  The source recurses once after
promoting an untracked block; promotion inserts the literal
`driftwatcher:` key, so the recursive call takes the tracked branch, and
the model unfolds that single level (the residual untracked branch is
unreachable and mapped to the key-missing error). -/
def add_entry (content pattern hash : List Char) : PRes (List Char) :=
  match parse content with
  | .panics => .panics
  | .err e => .err e
  | .ok none => .err .noFrontmatter
  | .ok (some fm) =>
    if fm.has_driftwatcher then add_entry_inner content pattern hash
    else
      match add_driftwatcher_to_existing content with
      | .panics => .panics
      | .err e => .err e
      | .ok c2 =>
        match parse c2 with
        | .panics => .panics
        | .err e => .err e
        | .ok none => .err .noFrontmatter
        | .ok (some fm2) =>
          if fm2.has_driftwatcher then add_entry_inner c2 pattern hash
          else .err .dwKeyMissing

/-- Model of Rust `str::lines`: split at `'\n'`, drop the final empty piece
produced by a trailing newline, and strip one trailing `'\r'` (a CRLF
ending) from each newline-terminated line; a final line without a
terminating newline is kept verbatim, trailing `'\r'` included. -/
def linesRust (s : List Char) : List (List Char) :=
  let parts := splitNL s
  let term := parts.dropLast.map (fun l => if l.getLast? = some '\r' then l.dropLast else l)
  match parts.getLast? with
  | none => term
  | some l => if l = [] then term else term ++ [l]

/-- Matching condition of `frontmatter::update_entry` for one line: a
sequence item whose key equals the pattern under double-quoted,
single-quoted or bare quoting. -/
def matchesEntryLine (pattern line : List Char) : Bool :=
  (chars "- ").isPrefixOf (trimB line) && containsSub line pattern &&
    (let t := (trimB line).drop 2
     ('"' :: pattern ++ '"' :: [':']).isPrefixOf t ||
     ('\'' :: pattern ++ '\'' :: [':']).isPrefixOf t ||
     (pattern ++ [':']).isPrefixOf t)

/-- Replacement line written by `update_entry`: original indentation, the
pattern double-quoted, the new hash. -/
def replLine (pattern newHash line : List Char) : List Char :=
  line.takeWhile Char.isWhitespace ++ chars "- \"" ++ pattern ++ chars "\": " ++ newHash

/-- First-match replacement pass of `update_entry` over the line list. -/
def updateLines (pattern newHash : List Char) : List (List Char) → Option (List (List Char))
  | [] => none
  | l :: rest =>
    if matchesEntryLine pattern l then some (replLine pattern newHash l :: rest)
    else
      match updateLines pattern newHash rest with
      | some r => some (l :: r)
      | none => none

/-- Model of `frontmatter::update_entry`: line-oriented rewrite, rejoined
with `'\n'` and a final newline. -/
def update_entry (content pattern newHash : List Char) : PRes (List Char) :=
  match updateLines pattern newHash (linesRust content) with
  | none => .err .entryNotFound
  | some ls => .ok (interNL ls ++ [nl])

/-- Error cases of the resolver and hasher (`anyhow` messages in the source,
collapsed to their distinct sites): invalid glob pattern, empty match set,
unreadable file or directory. -/
inductive PErr where
  | globPattern
  | noMatch
  | ioError
deriving DecidableEq

/-- Split on `'/'`, the separator of Unix paths. -/
def splitSlash : List Char → List (List Char)
  | [] => [[]]
  | c :: t =>
    if c = '/' then [] :: splitSlash t
    else
      match splitSlash t with
      | [] => [[c]]
      | p :: ps => (c :: p) :: ps

/-- Normalized path component, after Rust `Path::components` (no Windows
prefixes on Unix). -/
inductive PathComp where
  | rootDir
  | curDir
  | parentDir
  | normal (s : List Char)
deriving DecidableEq

/-- Componentization of the non-root segments: `.` survives only as the
first component of a relative path, empty segments are gone already. -/
def compsGo : Bool → List (List Char) → List PathComp
  | _, [] => []
  | first, s :: rest =>
    if s = ['.'] then (if first then [PathComp.curDir] else []) ++ compsGo false rest
    else if s = ['.', '.'] then PathComp.parentDir :: compsGo false rest
    else PathComp.normal s :: compsGo false rest

/-- Model of Rust `Path::components` on Unix: leading `/` is the root,
empty segments (doubled separators, trailing separator) are dropped,
interior `.` segments are normalized away. -/
def componentsOf (p : List Char) : List PathComp :=
  let parts := (splitSlash p).filter (fun s => s ≠ [])
  if p.head? = some '/' then PathComp.rootDir :: compsGo false parts
  else compsGo true parts

def renderComp : PathComp → List Char
  | .rootDir => ['/']
  | .curDir => ['.']
  | .parentDir => ['.', '.']
  | .normal s => s

/-- Join with `'/'` separators. -/
def interSlash : List (List Char) → List Char
  | [] => []
  | [l] => l
  | l :: l' :: ls => l ++ '/' :: interSlash (l' :: ls)

/-- Rendering of a component list back to path text (`PathBuf` display). -/
def renderComps (comps : List PathComp) : List Char :=
  if comps.head? = some PathComp.rootDir then
    '/' :: interSlash (comps.tail.map renderComp)
  else interSlash (comps.map renderComp)

/-- Model of Rust `Path::parent`: the path minus its last component, `none`
on an empty path or the bare root. -/
def parentPath (p : List Char) : Option (List Char) :=
  match componentsOf p with
  | [] => none
  | [PathComp.rootDir] => none
  | comps => some (renderComps comps.dropLast)

/-- Lexicographic comparison of character lists; for valid UTF-8 this
orders exactly like Rust's byte-wise `OsStr` comparison, since UTF-8
byte order agrees with codepoint order. -/
def charsCmp : List Char → List Char → Ordering
  | [], [] => .eq
  | [], _ :: _ => .lt
  | _ :: _, [] => .gt
  | x :: xs, y :: ys =>
    if x < y then .lt else if y < x then .gt else charsCmp xs ys

/-- Model of `Ord` on Rust `Component`: `RootDir < CurDir < ParentDir <
Normal`, normal components by their text. -/
def compCmp : PathComp → PathComp → Ordering
  | .rootDir, .rootDir => .eq
  | .rootDir, _ => .lt
  | _, .rootDir => .gt
  | .curDir, .curDir => .eq
  | .curDir, _ => .lt
  | _, .curDir => .gt
  | .parentDir, .parentDir => .eq
  | .parentDir, _ => .lt
  | _, .parentDir => .gt
  | .normal a, .normal b => charsCmp a b

def compsCmp : List PathComp → List PathComp → Ordering
  | [], [] => .eq
  | [], _ :: _ => .lt
  | _ :: _, [] => .gt
  | c :: cs, d :: ds =>
    match compCmp c d with
    | .eq => compsCmp cs ds
    | o => o

/-- Model of `Ord` on Rust `Path`/`PathBuf`: lexicographic over the
normalized components. -/
def pathCmp (a b : List Char) : Ordering := compsCmp (componentsOf a) (componentsOf b)

def pathLe (a b : List Char) : Bool :=
  match pathCmp a b with
  | .gt => false
  | _ => true

/-- String-order comparison, the sort key the specification asserts for
`hash_many`. -/
def strLe (a b : List Char) : Bool :=
  match charsCmp a b with
  | .gt => false
  | _ => true

/-- Stable insertion step used to model Rust's stable `slice::sort`. -/
def ordInsert {α : Type} (le : α → α → Bool) (a : α) : List α → List α
  | [] => [a]
  | b :: l => if le a b then a :: b :: l else b :: ordInsert le a l

/-- Insertion sort: the canonical stable sort, the model of Rust's stable
`Vec::sort` for any total preorder key. -/
def insSort {α : Type} (le : α → α → Bool) : List α → List α
  | [] => []
  | a :: l => ordInsert le a (insSort le l)

/-- Codepoints of a path's text, the bytes fed to the hasher for the path
(ASCII-faithful model of `to_string_lossy().as_bytes()`). -/
def charCodes (p : List Char) : List Nat := p.map Char.toNat

/-- SHA-256 is modelled as an ideal digest: the finalized digest is an
injective text rendering of the whole byte stream fed to the context.
Every claim about the hasher concerns only which bytes are fed in which
order and digest (in)equality, which this ideal model preserves. -/
def sha256finalize : List Nat → List Char
  | [] => []
  | b :: ctx => Nat.toDigits 10 b ++ ';' :: sha256finalize ctx

/-- Filesystem state visible to the tool, as a record of query functions:
current directory, existence/kind queries, file contents (`none` is an
unreadable file), glob expansion (`none` is an invalid pattern, per-entry
`Except` mirrors `glob`'s per-entry results), and the recursive
non-hidden file walk of `hash::collect_files_recursive` (a filesystem
traversal, abstracted as a capability; `none` is a read failure). -/
structure FS where
  cwd : List Char
  pathExists : List Char → Bool
  isDir : List Char → Bool
  isFile : List Char → Bool
  readFile : List Char → Option (List Nat)
  glob : List Char → Option (List (Except Unit (List Char)))
  collectFiles : List Char → Option (List (List Char))

/-- Model of `hash::hash_file`. -/
def hash_file (fs : FS) (path : List Char) : Except PErr (List Char) :=
  match fs.readFile path with
  | none => .error .ioError
  | some contents => .ok (sha256finalize contents)

/-- Folding loop of `hash::hash_files`: per path, feed path bytes, a
separator byte, the contents, a trailing separator byte. -/
def hashFilesGo (fs : FS) : List (List Char) → List Nat → Except PErr (List Nat)
  | [], ctx => .ok ctx
  | p :: rest, ctx =>
    match fs.readFile p with
    | none => .error .ioError
    | some contents => hashFilesGo fs rest (ctx ++ charCodes p ++ [10] ++ contents ++ [10])

/-- The sort inside `hash_files`: `sorted_paths.sort()` on `Vec<PathBuf>`,
stable and keyed by `PathBuf` ordering. -/
def sortPaths (paths : List (List Char)) : List (List Char) := insSort pathLe paths

/-- Model of `hash::hash_files`. -/
def hash_files (fs : FS) (paths : List (List Char)) : Except PErr (List Char) :=
  match hashFilesGo fs (sortPaths paths) [] with
  | .error e => .error e
  | .ok ctx => .ok (sha256finalize ctx)

/-- Model of `hash::hash_directory`. -/
def hash_directory (fs : FS) (dir : List Char) : Except PErr (List Char) :=
  match fs.collectFiles dir with
  | none => .error .ioError
  | some files =>
    if files.isEmpty then .ok (sha256finalize (charCodes dir))
    else hash_files fs files

/-- Byte stream described by the specification's sentence for `hash_many`:
concatenation, per path in the given order, of path bytes, separator,
contents, separator; `none` if any file is unreadable. -/
def filesStream (fs : FS) : List (List Char) → Option (List Nat)
  | [] => some []
  | p :: rest =>
    match fs.readFile p, filesStream fs rest with
    | some c, some s => some (charCodes p ++ [10] ++ c ++ [10] ++ s)
    | _, _ => none

/-- The specification's description of `hash_many` with the sort key the
code actually uses (path ordering): sort, then fold the stream. -/
def specHashMany (fs : FS) (paths : List (List Char)) : Except PErr (List Char) :=
  match filesStream fs (insSort pathLe paths) with
  | none => .error .ioError
  | some s => .ok (sha256finalize s)

/-- The specification's description of `hash_many` read literally: paths
sorted by their string representation, byte-wise. -/
def specHashManyStrSort (fs : FS) (paths : List (List Char)) : Except PErr (List Char) :=
  match filesStream fs (insSort strLe paths) with
  | none => .error .ioError
  | some s => .ok (sha256finalize s)

/-- Model of `paths::is_glob_pattern`. -/
def is_glob_pattern (s : List Char) : Bool :=
  s.contains '*' || s.contains '?' || s.contains '['

/-- Model of `paths::is_hidden`: some component starts with `.` and is
neither `.` nor `..`. -/
def is_hidden (p : List Char) : Bool :=
  (componentsOf p).any (fun c =>
    match c with
    | PathComp.normal s =>
      (s.head? == some '.') && !(s == chars ".") && !(s == chars "..")
    | _ => false)

/-- Model of Rust `Path::join` on Unix: an absolute right side replaces the
base, otherwise the sides are joined with a single separator. -/
def joinPath (base rel : List Char) : List Char :=
  if rel.head? = some '/' then rel
  else if base = [] then rel
  else if base.getLast? = some '/' then base ++ rel
  else base ++ '/' :: rel

/-- The per-document resolver of `paths.rs`. -/
structure PathResolver where
  doc_dir : List Char
  project_root : List Char
deriving DecidableEq

/-- Model of `PathResolver::resolve_from`. -/
def resolve_from (fs : FS) (base pattern : List Char) : Except PErr (List (List Char)) :=
  let full := joinPath base pattern
  if is_glob_pattern pattern then
    match fs.glob full with
    | none => .error .globPattern
    | some entries =>
      .ok (entries.filterMap (fun e =>
        match e with
        | .ok p => if is_hidden p then none else some p
        | .error _ => none))
  else if fs.pathExists full then .ok [full] else .ok []

/-- Model of `PathResolver::resolve`. -/
def PathResolver.resolve (r : PathResolver) (fs : FS) (pattern : List Char) :
    Except PErr (List (List Char)) :=
  if (chars "$ROOT/").isPrefixOf pattern then
    resolve_from fs r.project_root (pattern.drop 6)
  else resolve_from fs r.doc_dir pattern

/-- Model of `PathResolver::hash_pattern`. -/
def PathResolver.hash_pattern (r : PathResolver) (fs : FS) (pattern : List Char) :
    Except PErr (List Char) :=
  match r.resolve fs pattern with
  | .error e => .error e
  | .ok paths =>
    match paths with
    | [] => .error .noMatch
    | [p] => if fs.isDir p then hash_directory fs p else hash_file fs p
    | _ =>
      let files := paths.filter fs.isFile
      if files.isEmpty then .error .noMatch
      else hash_files fs files

/-- The marker query of `paths::find_project_root`: the candidate directory
joined with `.git` exists. -/
def marked (fs : FS) (comps : List PathComp) : Bool :=
  fs.pathExists (joinPath (renderComps comps) (chars ".git"))

/-- Walk of `paths::find_project_root` over the reversed component list
(structural recursion: the parent drops the last component, the head of
the reverse). -/
def findRootRev (fs : FS) : List PathComp → Option (List PathComp)
  | [] => if marked fs [] then some [] else none
  | c :: rest =>
    if marked fs ((c :: rest).reverse) then some ((c :: rest).reverse)
    else if rest = [] ∧ c = PathComp.rootDir then none
    else findRootRev fs rest

/-- Model of the upward walk of `paths::find_project_root`, over normalized
components: check the current directory, then its parent, failing once no
parent remains. -/
def findProjectRootAux (fs : FS) (comps : List PathComp) : Option (List PathComp) :=
  findRootRev fs comps.reverse

/-- Document directory computation of `PathResolver::new`: the parent, with
the empty parent replaced by `.`. -/
def docDirOf (docPath : List Char) : List Char :=
  match parentPath docPath with
  | some d => if d = [] then chars "." else d
  | none => chars "."

/-- Walk start of `paths::find_project_root`: the document directory made
absolute against the current directory when relative. -/
def startOf (fs : FS) (docPath : List Char) : List Char :=
  let d := docDirOf docPath
  if d.head? = some '/' then d else joinPath fs.cwd d

/-- Model of `PathResolver::new`; `none` is the `ProjectRootNotFound` error. -/
def PathResolver.new (fs : FS) (docPath : List Char) : Option PathResolver :=
  match findProjectRootAux fs (componentsOf (startOf fs docPath)) with
  | none => none
  | some rc => some ⟨docDirOf docPath, renderComps rc⟩

/-- The four drift states, from `status.rs`. -/
inductive Status where
  | current
  | drifted
  | missing
  | invalid
deriving DecidableEq

/-- Model of `Status::is_problem`. -/
def Status.is_problem : Status → Bool
  | .drifted => true
  | .missing => true
  | _ => false

/-- Model of `check_entry` in `commands/check.rs`: hash presence, then
resolution, then the digest comparison; the computed digest rides along
with `Current` and `Drifted`. -/
def check_entry (fs : FS) (r : PathResolver) (entry : WatchEntry) :
    Status × Option (List Char) :=
  match entry.hash with
  | none => (.invalid, none)
  | some stored =>
    match r.resolve fs entry.pattern with
    | .error _ => (.missing, none)
    | .ok paths =>
      if paths.isEmpty then (.missing, none)
      else
        match r.hash_pattern fs entry.pattern with
        | .error _ => (.missing, none)
        | .ok current =>
          if current = stored then (Status.current, some current)
          else (Status.drifted, some current)

/-- Model of `check_entry` in `commands/report.rs` (same logic, status only). -/
def check_entry_status (fs : FS) (r : PathResolver) (entry : WatchEntry) : Status :=
  match entry.hash with
  | none => .invalid
  | some stored =>
    match r.resolve fs entry.pattern with
    | .error _ => .missing
    | .ok paths =>
      if paths.isEmpty then .missing
      else
        match r.hash_pattern fs entry.pattern with
        | .error _ => .missing
        | .ok current => if current = stored then Status.current else Status.drifted

/-- Statuses contributed by one document in `report::run`: `none` when the
document is skipped (parse failure, no driftwatcher, resolver failure). -/
def docStatuses (fs : FS) (docPath content : List Char) : Option (List Status) :=
  match parse content with
  | PRes.ok (some fm) =>
    if fm.has_driftwatcher then
      match PathResolver.new fs docPath with
      | some r => some (fm.entries.map (check_entry_status fs r))
      | none => none
    else none
  | _ => none

/-- All statuses evaluated by `report::run` over the scanned documents
(each given as path and contents). -/
def report_statuses (fs : FS) (docs : List (List Char × List Char)) : List Status :=
  docs.foldr (fun d acc => (docStatuses fs d.1 d.2).getD [] ++ acc) []

/-- Exit code of `report::run`: 1 exactly when some evaluated status is a
problem; `none` models the process dying on a parse panic. -/
def report_run (fs : FS) (docs : List (List Char × List Char)) : Option Nat :=
  if docs.any (fun d => parse d.2 = PRes.panics) then none
  else some (if (report_statuses fs docs).any Status.is_problem then 1 else 0)

/-- Fixture filesystem for concrete witnesses: everything readable with
one-byte contents, a version-control marker at the root. -/
def fsA : FS where
  cwd := chars "/"
  pathExists := fun p => p == chars "/.git"
  isDir := fun _ => false
  isFile := fun _ => false
  readFile := fun _ => some [1]
  glob := fun _ => none
  collectFiles := fun _ => none

/-- Fixture filesystem for concrete witnesses: a project root at `/r` and
one readable file `d/f.txt`. -/
def fsB : FS where
  cwd := chars "/r"
  pathExists := fun p => p == chars "/r/.git" || p == chars "d/f.txt"
  isDir := fun _ => false
  isFile := fun p => p == chars "d/f.txt"
  readFile := fun p => if p = chars "d/f.txt" then some [7] else none
  glob := fun _ => none
  collectFiles := fun _ => none

/-- Fixture resolver rooted at `/r` with document directory `d`. -/
def rB : PathResolver := { doc_dir := chars "d", project_root := chars "/r" }

/-- Componentwise decidable equality for `Except` results. -/
instance {e a : Type} [DecidableEq e] [DecidableEq a] : DecidableEq (Except e a) := fun x y =>
  match x, y with
  | .ok u, .ok v =>
    if h : u = v then isTrue (by rw [h])
    else isFalse (fun hc => h (Except.ok.inj hc))
  | .error u, .error v =>
    if h : u = v then isTrue (by rw [h])
    else isFalse (fun hc => h (Except.error.inj hc))
  | .ok _, .error _ => isFalse (fun hc => Except.noConfusion hc)
  | .error _, .ok _ => isFalse (fun hc => Except.noConfusion hc)

/-- Fixture document list for the report witness: one tracked document with
a single hashless entry (status `Invalid`). -/
def docsC10 : List (List Char × List Char) :=
  [(chars "x.md", chars "---\ndriftwatcher:\n  - \"p\":\n---\nb")]

/-- Structured tracked document used to quantify claim C6 over the YAML
subset the tool reads and writes: opaque top-level lines before and after
the reserved block, the entries, and the document body. -/
structure TrackedDoc where
  pre : List (List Char)
  entries : List WatchEntry
  post : List (List Char)
  body : List Char

/-- Canonical rendering of one entry, as the tool itself writes it. -/
def renderEntryLine (e : WatchEntry) : List Char :=
  chars "  - " ++ '"' :: e.pattern ++ '"' :: ':' ::
    (match e.hash with
     | none => []
     | some h => ' ' :: h)

/-- The YAML lines of a tracked document. -/
def yamlLinesOf (d : TrackedDoc) : List (List Char) :=
  d.pre ++ chars "driftwatcher:" :: (d.entries.map renderEntryLine ++ d.post)

/-- Full document text of a tracked document. -/
def renderDoc (d : TrackedDoc) : List Char :=
  chars "---\n" ++ blockOf (yamlLinesOf d) ++ chars "---\n" ++ d.body

/-- Well-formed opaque line: newline-free, does not look like a delimiter,
an entry or the reserved key, and reads as a plain `key: value` line. -/
def GoodOther (l : List Char) : Prop :=
  nl ∉ l ∧ ¬ dashes <+: l ∧ containsSub l (chars "driftwatcher:") = false ∧
    isOtherLine l = true ∧ isEntryish l = false ∧ isBlankL l = false

/-- Well-formed watch pattern: renders into one entry line unambiguously. -/
def GoodKey (p : List Char) : Prop := p ≠ [] ∧ nl ∉ p ∧ '"' ∉ p

/-- Well-formed hash value: a nonempty scalar with no newline and no
leading space. -/
def GoodVal : Option (List Char) → Prop
  | none => True
  | some h => h ≠ [] ∧ nl ∉ h ∧ h.head? ≠ some ' '

def GoodEntry (e : WatchEntry) : Prop := GoodKey e.pattern ∧ GoodVal e.hash

def GoodDoc (d : TrackedDoc) : Prop :=
  (∀ l ∈ d.pre, GoodOther l) ∧ (∀ e ∈ d.entries, GoodEntry e) ∧
    (∀ l ∈ d.post, GoodOther l)

theorem isPrefixOf_eq : ∀ (l m : List Char), l.isPrefixOf m = true ↔ l <+: m
  | [], m => Iff.intro (fun _ => ⟨m, rfl⟩) (fun _ => by cases m <;> rfl)
  | a :: l, [] => by
    constructor
    · intro h
      exact Bool.noConfusion h
    · intro h
      obtain ⟨t, ht⟩ := h
      exact absurd ht (by simp)
  | a :: l, b :: m => by
    simp only [List.isPrefixOf, List.cons_prefix_cons, Bool.and_eq_true, beq_iff_eq]
    exact and_congr Iff.rfl (isPrefixOf_eq l m)

theorem isPrefixOf_false (l m : List Char) (h : l.isPrefixOf m = false) : ¬ l <+: m := by
  intro hp
  rw [(isPrefixOf_eq l m).mpr hp] at h
  exact absurd h (by simp)

/-- Splitting a prefix relation over an append. -/
theorem prefix_append_cases {p l r : List Char} (h : p <+: l ++ r) :
    (p.length ≤ l.length ∧ p <+: l) ∨
    (l.length < p.length ∧ l <+: p ∧ p.drop l.length <+: r) := by
  rcases Nat.lt_or_ge l.length p.length with hlt | hle
  · right
    obtain ⟨t, ht⟩ := h
    have hl : p.take l.length = l := by
      have h2 := congrArg (List.take l.length) ht
      rwa [List.take_append_of_le_length (Nat.le_of_lt hlt), List.take_left l r] at h2
    refine ⟨hlt, ?_, ?_⟩
    · refine ⟨p.drop l.length, ?_⟩
      nth_rewrite 1 [← hl]
      exact List.take_append_drop _ _
    · refine ⟨t, ?_⟩
      calc p.drop l.length ++ t = (p ++ t).drop l.length := by
            rw [List.drop_append_of_le_length (Nat.le_of_lt hlt)]
        _ = (l ++ r).drop l.length := by rw [ht]
        _ = r := List.drop_left l r
  · left
    refine ⟨hle, ?_⟩
    have h1 : p <+: (l ++ r).take p.length :=
      List.prefix_take_iff.mpr ⟨h, Nat.le_refl _⟩
    rw [List.take_append_of_le_length hle] at h1
    exact h1.trans ⟨l.drop p.length, List.take_append_drop _ _⟩

theorem containsSub_of_prefix {x m : List Char} (h : m <+: x) : containsSub x m = true := by
  cases x with
  | nil =>
    simp only [containsSub]
    exact (isPrefixOf_eq m []).mpr h
  | cons c t =>
    simp only [containsSub, Bool.or_eq_true]
    exact Or.inl ((isPrefixOf_eq m (c :: t)).mpr h)

theorem containsSub_cons {c : Char} {t m : List Char} (h : containsSub t m = true) :
    containsSub (c :: t) m = true := by
  simp only [containsSub, Bool.or_eq_true]
  exact Or.inr h

/-- Occurrence characterisation of `containsSub`. -/
theorem containsSub_iff (x m : List Char) :
    containsSub x m = true ↔ ∃ s t, x = s ++ m ++ t := by
  induction x with
  | nil =>
    simp only [containsSub]
    rw [isPrefixOf_eq]
    constructor
    · intro h
      obtain ⟨t, ht⟩ := h
      have hm : m = [] := (List.append_eq_nil.mp ht).1
      exact ⟨[], [], by simp [hm]⟩
    · rintro ⟨s, t, hst⟩
      have hs : s = [] := by
        cases s with
        | nil => rfl
        | cons a s => exact absurd hst (by simp)
      have hm : m = [] := by
        cases m with
        | nil => rfl
        | cons a m =>
          subst hs
          exact absurd hst (by simp)
      subst hm
      exact ⟨[], rfl⟩
  | cons c t ih =>
    simp only [containsSub, Bool.or_eq_true]
    constructor
    · rintro (h | h)
      · obtain ⟨u, hu⟩ := (isPrefixOf_eq m (c :: t)).mp h
        exact ⟨[], u, by simp [hu]⟩
      · obtain ⟨s, u, hsu⟩ := ih.mp h
        exact ⟨c :: s, u, by simp [hsu]⟩
    · rintro ⟨s, u, hsu⟩
      cases s with
      | nil =>
        left
        rw [isPrefixOf_eq]
        exact ⟨u, by simpa using hsu.symm⟩
      | cons a s =>
        right
        apply ih.mpr
        refine ⟨s, u, ?_⟩
        have := hsu
        simp only [List.cons_append] at this
        exact (List.cons.injEq _ _ _ _).mp this |>.2

theorem findSub_none_iff (x m : List Char) :
    findSub x m = none ↔ containsSub x m = false := by
  induction x with
  | nil =>
    simp only [findSub, containsSub]
    by_cases h : m.isPrefixOf [] <;> simp [h]
  | cons c t ih =>
    simp only [findSub, containsSub]
    by_cases h : m.isPrefixOf (c :: t) <;> simp [h, Option.map_eq_none', ih]

/-- A found prefix yields index zero. -/
theorem findSub_zero {x m : List Char} (h : m <+: x) : findSub x m = some 0 := by
  cases x with
  | nil =>
    simp [findSub, (isPrefixOf_eq m []).mpr h]
  | cons c t =>
    simp [findSub, (isPrefixOf_eq m (c :: t)).mpr h]

theorem head_of_pre {p r : List Char} (h : p <+: r) (hne : p ≠ []) :
    r.head? = p.head? := by
  obtain ⟨t, ht⟩ := h
  cases p with
  | nil => exact absurd rfl hne
  | cons a p' => rw [← ht]; rfl


theorem containsSub_ne_nil {x m : List Char} (h : containsSub x m = false) : m ≠ [] := by
  intro hm
  subst hm
  have ht : containsSub x [] = true := containsSub_of_prefix ⟨x, rfl⟩
  rw [h] at ht
  exact Bool.noConfusion ht

/-- An occurrence of a needle that avoids a character cannot straddle that
character: it lies wholly on one side. -/
theorem containsSplitChar : ∀ (a b m : List Char) (c : Char), c ∉ m →
    containsSub (a ++ c :: b) m = true →
    containsSub a m = true ∨ containsSub b m = true
  | [], b, m, c, hc, h => by
    simp only [List.nil_append, containsSub, Bool.or_eq_true] at h
    rcases h with h | h
    · rw [isPrefixOf_eq] at h
      cases m with
      | nil => exact Or.inl ( containsSub_of_prefix ⟨[], rfl⟩)
      | cons d m' =>
        rw [List.cons_prefix_cons] at h
        exact absurd (h.1 ▸ List.mem_cons_self d m') hc
    · exact Or.inr h
  | x :: a, b, m, c, hc, h => by
    simp only [List.cons_append, containsSub, Bool.or_eq_true] at h
    rcases h with h | h
    · rw [isPrefixOf_eq] at h
      have h2 : m <+: (x :: a) ++ c :: b := by simpa using h
      rcases prefix_append_cases h2 with ⟨_, hma⟩ | ⟨hlt, _, hdrop⟩
      · exact Or.inl ( containsSub_of_prefix hma)
      · have hne : m.drop (x :: a).length ≠ [] := by
          intro hnil
          have hlen := congrArg List.length hnil
          simp [List.length_drop] at hlen
          simp [List.length_cons] at hlt
          omega
        have hhead := head_of_pre hdrop hne
        have hd2 : (m.drop (x :: a).length).head? = some c := by
          rw [← hhead]
          rfl
        have hcmem : c ∈ m := by
          rcases hd : m.drop (x :: a).length with _ | ⟨e, es⟩
          · rw [hd] at hd2
            exact Option.noConfusion hd2
          · rw [hd] at hd2
            have he : e = c := by simpa using hd2
            apply List.mem_of_mem_drop (n := (x :: a).length)
            rw [hd, he]
            exact List.mem_cons_self c es
        exact absurd hcmem hc
    · rcases containsSplitChar a b m c hc h with h1 | h1
      · exact Or.inl (containsSub_cons h1)
      · exact Or.inr h1

/-- Finding a single character that does not occur in the leading segment. -/
theorem findSub_notmem : ∀ (k : List Char) (c : Char) (r : List Char), c ∉ k →
    findSub (k ++ c :: r) [c] = some k.length
  | [], c, r, _ => by
    simp only [List.nil_append]
    exact findSub_zero ⟨r, rfl⟩
  | d :: k, c, r, hc => by
    have hdc : ¬ ([c].isPrefixOf (d :: (k ++ c :: r)) = true) := by
      intro h
      rw [isPrefixOf_eq, List.cons_prefix_cons] at h
      exact hc (h.1 ▸ List.mem_cons_self d k)
    simp only [List.cons_append, findSub, List.append_eq]
    rw [if_neg hdc]
    rw [findSub_notmem k c r (fun hm => hc (List.mem_cons_of_mem d hm))]
    rfl

/-- Skipping a newline-free line while searching for a needle that starts
with a newline. -/
theorem findSub_line_skip : ∀ (l mid m : List Char), nl ∉ l → m.head? = some nl →
    findSub (l ++ mid) m = (findSub mid m).map (l.length + ·)
  | [], mid, m, _, _ => by
    simp only [List.nil_append, List.length_nil]
    cases findSub mid m <;> simp
  | c :: l, mid, m, hl, hm => by
    have hcp : ¬ (m.isPrefixOf (c :: (l ++ mid)) = true) := by
      intro h
      rw [isPrefixOf_eq] at h
      cases m with
      | nil => exact Option.noConfusion hm
      | cons d m' =>
        rw [List.cons_prefix_cons] at h
        have hd : d = nl := by simpa using hm
        have hcnl : c = nl := h.1 ▸ hd
        refine hl ?_
        rw [hcnl]
        exact List.mem_cons_self nl l
    simp only [List.cons_append, findSub, List.append_eq]
    rw [if_neg hcp]
    rw [findSub_line_skip l mid m (fun hx => hl (List.mem_cons_of_mem c hx)) hm]
    cases findSub mid m with
    | none => rfl
    | some i =>
      simp only [Option.map_some', List.length_cons]
      congr 1
      omega

/-- Finding the first occurrence of `"\n---"` over newline-prepended lines
none of which opens with the dashes. -/
theorem findSub_fl : ∀ (ls : List (List Char)) (tail : List Char),
    (∀ l ∈ ls, nl ∉ l ∧ ¬ dashes <+: l) →
    findSub (flLines ls ++ ((nl :: dashes) ++ tail)) (nl :: dashes) =
      some (flLines ls).length
  | [], tail, _ => by
    simp only [flLines, List.nil_append, List.length_nil]
    exact findSub_zero ⟨tail, by simp⟩
  | l :: ls, tail, hls => by
    have hstep := hls l (List.mem_cons_self l ls)
    have hrest : ∀ x ∈ ls, nl ∉ x ∧ ¬ dashes <+: x :=
      fun x hx => hls x (List.mem_cons_of_mem l hx)
    have hR : (flLines ls ++ ((nl :: dashes) ++ tail)).head? = some nl := by
      cases ls with
      | nil => rfl
      | cons y ys => rfl
    have hnotp : ¬ ((nl :: dashes) <+:
        nl :: (l ++ (flLines ls ++ ((nl :: dashes) ++ tail)))) := by
      intro h
      rw [List.cons_prefix_cons] at h
      rcases prefix_append_cases h.2 with ⟨_, hma⟩ | ⟨hlt, _, hdrop⟩
      · exact hstep.2 hma
      · have hne : dashes.drop l.length ≠ [] := by
          intro hnil
          have hlen := congrArg List.length hnil
          simp [List.length_drop, dashes] at hlen
          simp [dashes] at hlt
          omega
        have hh := head_of_pre hdrop hne
        rw [hR] at hh
        have hlt3 : l.length < 3 := by simpa [dashes] using hlt
        have hdh : (dashes.drop l.length).head? = some '-' := by
          revert hlt3
          generalize l.length = k
          intro hlt3
          interval_cases k <;> rfl
        rw [hdh] at hh
        have : nl = '-' := by simpa using hh
        exact absurd this (by decide)
    have hppf : ¬ ((nl :: dashes).isPrefixOf
        (nl :: (l ++ (flLines ls ++ ((nl :: dashes) ++ tail)))) = true) := by
      intro h
      exact hnotp ((isPrefixOf_eq _ _).mp h)
    have hx : flLines (l :: ls) ++ ((nl :: dashes) ++ tail) =
        nl :: (l ++ (flLines ls ++ ((nl :: dashes) ++ tail))) := by
      simp [flLines, List.append_assoc]
    rw [hx]
    simp only [findSub, List.append_eq]
    rw [if_neg hppf]
    rw [findSub_line_skip l _ (nl :: dashes) hstep.1 rfl]
    rw [findSub_fl ls tail hrest]
    simp only [Option.map_some', flLines, List.length_cons, List.length_append]

theorem blockOf_append : ∀ (xs ys : List (List Char)),
    blockOf (xs ++ ys) = blockOf xs ++ blockOf ys
  | [], ys => rfl
  | l :: xs, ys => by
    show l ++ nl :: blockOf (xs ++ ys) = (l ++ nl :: blockOf xs) ++ blockOf ys
    rw [blockOf_append xs ys]
    simp [List.append_assoc]

theorem fl_block : ∀ (ls : List (List Char)), nl :: blockOf ls = flLines ls ++ [nl]
  | [] => rfl
  | l :: ls => by
    show nl :: (l ++ nl :: blockOf ls) = (nl :: (l ++ flLines ls)) ++ [nl]
    rw [fl_block ls]
    simp [List.append_assoc]

theorem block_concat (l : List Char) (ls : List (List Char)) :
    blockOf (l :: ls) = (l ++ flLines ls) ++ [nl] := by
  show l ++ nl :: blockOf ls = (l ++ flLines ls) ++ [nl]
  rw [fl_block ls, List.append_assoc]

theorem fl_eq_inter : ∀ (l : List Char) (ls : List (List Char)),
    l ++ flLines ls = interNL (l :: ls)
  | l, [] => by simp [flLines, interNL]
  | l, l' :: ls => by
    show l ++ (nl :: (l' ++ flLines ls)) = interNL (l :: l' :: ls)
    rw [interNL, ← fl_eq_inter l' ls]

theorem fl_length (ls : List (List Char)) : (flLines ls).length = (blockOf ls).length := by
  have := congrArg List.length (fl_block ls)
  simp at this
  omega

/-- A nonempty needle that contains no newline occurring in a
newline-terminated block occurs inside one of its lines. -/
theorem containsSub_block : ∀ (ls : List (List Char)) (m : List Char), m ≠ [] → nl ∉ m →
    containsSub (blockOf ls) m = true → ∃ l ∈ ls, containsSub l m = true
  | [], m, hne, _, h => by
    have hp : m <+: [] := (isPrefixOf_eq m []).mp h
    obtain ⟨t, ht⟩ := hp
    exact absurd (List.append_eq_nil.mp ht).1 hne
  | l :: ls, m, hne, hm, h => by
    simp only [blockOf] at h
    rcases containsSplitChar l (blockOf ls) m nl hm h with h1 | h1
    · exact ⟨l, List.mem_cons_self l ls, h1⟩
    · obtain ⟨x, hx, hcx⟩ := containsSub_block ls m hne hm h1
      exact ⟨x, List.mem_cons_of_mem l hx, hcx⟩

theorem splitNL_no_nl : ∀ (l : List Char), nl ∉ l → splitNL l = [l]
  | [], _ => rfl
  | c :: t, h => by
    have hc : ¬ (c = nl) := fun hc => h (hc ▸ List.mem_cons_self c t)
    simp only [splitNL, if_neg hc]
    rw [splitNL_no_nl t (fun hx => h (List.mem_cons_of_mem c hx))]

theorem splitNL_append_line : ∀ (l rest : List Char), nl ∉ l →
    splitNL (l ++ nl :: rest) = l :: splitNL rest
  | [], rest, _ => by simp [splitNL]
  | c :: t, rest, h => by
    have hc : ¬ (c = nl) := fun hc => h (hc ▸ List.mem_cons_self c t)
    simp only [List.cons_append, splitNL, if_neg hc, List.append_eq]
    rw [splitNL_append_line t rest (fun hx => h (List.mem_cons_of_mem c hx))]

/-- Splitting is a left inverse of joining for newline-free lines. -/
theorem splitNL_inter : ∀ (ls : List (List Char)), ls ≠ [] →
    (∀ l ∈ ls, nl ∉ l) → splitNL (interNL ls) = ls
  | [], h, _ => absurd rfl h
  | [l], _, hnl => by
    simp only [interNL]
    exact splitNL_no_nl l (hnl l (List.mem_cons_self l []))
  | l :: l' :: ls, _, hnl => by
    rw [interNL]
    rw [splitNL_append_line l _ (hnl l (List.mem_cons_self l _))]
    rw [splitNL_inter (l' :: ls) (by simp) (fun x hx => hnl x (List.mem_cons_of_mem l hx))]

theorem span_computes : ∀ (xs ys : List (List Char)) (p : List Char → Bool),
    (∀ a ∈ xs, p a = true) → (∀ y, ys.head? = some y → p y = false) →
    (xs ++ ys).takeWhile p = xs ∧ (xs ++ ys).dropWhile p = ys
  | [], ys, p, _, hys => by
    cases ys with
    | nil => exact ⟨rfl, rfl⟩
    | cons y ys' =>
      have := hys y rfl
      simp [List.takeWhile, List.dropWhile, this]
  | x :: xs, ys, p, hxs, hys => by
    have hx := hxs x (List.mem_cons_self x xs)
    have ih := span_computes xs ys p (fun a ha => hxs a (List.mem_cons_of_mem x ha)) hys
    simp only [List.cons_append, List.takeWhile, List.dropWhile, hx, List.append_eq]
    exact ⟨by rw [ih.1], by rw [ih.2]⟩

theorem charsCmp_eq_iff : ∀ (a b : List Char), charsCmp a b = .eq ↔ a = b
  | [], [] => by simp [charsCmp]
  | [], _ :: _ => by simp [charsCmp]
  | _ :: _, [] => by simp [charsCmp]
  | x :: xs, y :: ys => by
    simp only [charsCmp]
    by_cases h1 : x < y
    · rw [if_pos h1]
      constructor
      · intro h
        exact absurd h (by simp)
      · intro h
        have hx : x = y := ((List.cons.injEq x xs y ys).mp h).1
        exact absurd (hx ▸ h1) (lt_irrefl y)
    · rw [if_neg h1]
      by_cases h2 : y < x
      · rw [if_pos h2]
        constructor
        · intro h
          exact absurd h (by simp)
        · intro h
          have hx : x = y := ((List.cons.injEq x xs y ys).mp h).1
          exact absurd (hx ▸ h2) (lt_irrefl y)
      · rw [if_neg h2]
        have hxy : x = y := le_antisymm (le_of_not_lt h2) (le_of_not_lt h1)
        subst hxy
        rw [charsCmp_eq_iff xs ys]
        simp

theorem charsCmp_swap : ∀ (a b : List Char), charsCmp b a = (charsCmp a b).swap
  | [], [] => rfl
  | [], _ :: _ => rfl
  | _ :: _, [] => rfl
  | x :: xs, y :: ys => by
    simp only [charsCmp]
    rcases lt_trichotomy x y with h | h | h
    · rw [if_neg (lt_asymm h), if_pos h, if_pos h]
      rfl
    · subst h
      simp only [if_neg (lt_irrefl x)]
      exact charsCmp_swap xs ys
    · rw [if_pos h, if_neg (lt_asymm h), if_pos h]
      rfl

theorem charsCmp_lt_trans : ∀ (a b c : List Char),
    charsCmp a b = .lt → charsCmp b c = .lt → charsCmp a c = .lt
  | [], b, c, _, hbc => by
    cases b with
    | nil => exact hbc
    | cons y ys =>
      cases c with
      | nil => exact absurd hbc (by simp [charsCmp])
      | cons z zs => rfl
  | _ :: _, [], _, hab, _ => absurd hab (by simp [charsCmp])
  | x :: xs, y :: ys, c, hab, hbc => by
    cases c with
    | nil => exact absurd hbc (by simp [charsCmp])
    | cons z zs =>
      simp only [charsCmp] at hab hbc ⊢
      rcases lt_trichotomy x y with h1 | h1 | h1
      · rcases lt_trichotomy y z with h2 | h2 | h2
        · rw [if_pos (lt_trans h1 h2)]
        · subst h2
          rw [if_pos h1]
        · rw [if_neg (lt_asymm h2), if_pos h2] at hbc
          exact absurd hbc (by simp)
      · subst h1
        rw [if_neg (lt_irrefl x), if_neg (lt_irrefl x)] at hab
        rcases lt_trichotomy x z with h2 | h2 | h2
        · rw [if_pos h2]
        · subst h2
          rw [if_neg (lt_irrefl x), if_neg (lt_irrefl x)] at hbc ⊢
          exact charsCmp_lt_trans xs ys zs hab hbc
        · rw [if_neg (lt_asymm h2), if_pos h2] at hbc
          exact absurd hbc (by simp)
      · rw [if_neg (lt_asymm h1), if_pos h1] at hab
        exact absurd hab (by simp)

theorem compCmp_eq_iff : ∀ (c d : PathComp), compCmp c d = .eq ↔ c = d := by
  intro c d
  cases c <;> cases d <;>
    first
    | (show charsCmp _ _ = .eq ↔ _
       rw [charsCmp_eq_iff]
       simp)
    | decide
    | simp [compCmp]

theorem compCmp_swap : ∀ (c d : PathComp), compCmp d c = (compCmp c d).swap := by
  intro c d
  cases c <;> cases d <;>
    first
    | rfl
    | exact charsCmp_swap _ _

theorem compCmp_lt_trans : ∀ (c d e : PathComp),
    compCmp c d = .lt → compCmp d e = .lt → compCmp c e = .lt := by
  intro c d e h1 h2
  cases c <;> cases d <;> cases e <;>
    first
    | rfl
    | exact charsCmp_lt_trans _ _ _ h1 h2
    | exact Ordering.noConfusion h1
    | exact Ordering.noConfusion h2

theorem compsCmp_cons (c d : PathComp) (cs ds : List PathComp) :
    compsCmp (c :: cs) (d :: ds) =
      match compCmp c d with
      | .eq => compsCmp cs ds
      | o => o := rfl

theorem compsCmp_eq_iff : ∀ (a b : List PathComp), compsCmp a b = .eq ↔ a = b
  | [], [] => by simp [compsCmp]
  | [], _ :: _ => by simp [compsCmp]
  | _ :: _, [] => by simp [compsCmp]
  | c :: cs, d :: ds => by
    rw [compsCmp_cons]
    rcases hc : compCmp c d with _ | _ | _
    · constructor
      · intro h
        exact Ordering.noConfusion h
      · intro h
        have hcd : c = d := ((List.cons.injEq c cs d ds).mp h).1
        rw [← compCmp_eq_iff c d, hc] at hcd
        exact Ordering.noConfusion hcd
    · have hcd := (compCmp_eq_iff c d).mp hc
      subst hcd
      show compsCmp cs ds = .eq ↔ c :: cs = c :: ds
      rw [compsCmp_eq_iff cs ds]
      simp
    · constructor
      · intro h
        exact Ordering.noConfusion h
      · intro h
        have hcd : c = d := ((List.cons.injEq c cs d ds).mp h).1
        rw [← compCmp_eq_iff c d, hc] at hcd
        exact Ordering.noConfusion hcd

theorem compsCmp_swap : ∀ (a b : List PathComp), compsCmp b a = (compsCmp a b).swap
  | [], [] => rfl
  | [], _ :: _ => rfl
  | _ :: _, [] => rfl
  | c :: cs, d :: ds => by
    rw [compsCmp_cons, compsCmp_cons, compCmp_swap c d]
    rcases hc : compCmp c d with _ | _ | _
    · rfl
    · exact compsCmp_swap cs ds
    · rfl

theorem ordering_then_lt (a b : Ordering) :
    a.then b = .lt ↔ a = .lt ∨ (a = .eq ∧ b = .lt) := by
  cases a <;> cases b <;> decide

theorem compsCmp_cons_then (c d : PathComp) (cs ds : List PathComp) :
    compsCmp (c :: cs) (d :: ds) = (compCmp c d).then (compsCmp cs ds) := by
  rw [compsCmp_cons]
  rcases compCmp c d with _ | _ | _ <;> rfl

theorem compsCmp_lt_trans : ∀ (a b c : List PathComp),
    compsCmp a b = .lt → compsCmp b c = .lt → compsCmp a c = .lt
  | [], b, c, _, hbc => by
    cases b with
    | nil => exact hbc
    | cons y ys =>
      cases c with
      | nil => exact absurd hbc (by simp [compsCmp])
      | cons z zs => rfl
  | _ :: _, [], _, hab, _ => absurd hab (by simp [compsCmp])
  | x :: xs, y :: ys, c, hab, hbc => by
    cases c with
    | nil => exact absurd hbc (by simp [compsCmp])
    | cons z zs =>
      rw [compsCmp_cons_then, ordering_then_lt] at hab hbc
      rw [compsCmp_cons_then, ordering_then_lt]
      rcases hab with h1 | ⟨h1, h1'⟩
      · rcases hbc with h2 | ⟨h2, h2'⟩
        · exact Or.inl (compCmp_lt_trans x y z h1 h2)
        · have hz := (compCmp_eq_iff y z).mp h2
          subst hz
          exact Or.inl h1
      · have hy := (compCmp_eq_iff x y).mp h1
        subst hy
        rcases hbc with h2 | ⟨h2, h2'⟩
        · exact Or.inl h2
        · exact Or.inr ⟨h2, compsCmp_lt_trans xs ys zs h1' h2'⟩

theorem pathLe_iff (a b : List Char) : pathLe a b = true ↔ pathCmp a b ≠ .gt := by
  unfold pathLe
  rcases pathCmp a b with _ | _ | _ <;> simp

theorem pathCmp_swap (a b : List Char) : pathCmp b a = (pathCmp a b).swap :=
  compsCmp_swap _ _

theorem pathLe_total (a b : List Char) : pathLe a b = true ∨ pathLe b a = true := by
  rw [pathLe_iff, pathLe_iff, pathCmp_swap a b]
  rcases pathCmp a b with _ | _ | _ <;> simp [Ordering.swap]

theorem pathLe_trans (a b c : List Char) (hab : pathLe a b = true)
    (hbc : pathLe b c = true) : pathLe a c = true := by
  rw [pathLe_iff] at hab hbc ⊢
  rcases h1 : pathCmp a b with _ | _ | _
  · rcases h2 : pathCmp b c with _ | _ | _
    · have h3 : pathCmp a c = .lt := compsCmp_lt_trans _ _ _ h1 h2
      rw [h3]
      simp
    · have hbc2 := (compsCmp_eq_iff _ _).mp h2
      have h3 : pathCmp a c = .lt := by
        show compsCmp (componentsOf a) (componentsOf c) = .lt
        rw [← hbc2]
        exact h1
      rw [h3]
      simp
    · exact absurd h2 hbc
  · have hab2 := (compsCmp_eq_iff _ _).mp h1
    intro hgt
    apply hbc
    show compsCmp (componentsOf b) (componentsOf c) = .gt
    rw [← hab2]
    exact hgt
  · exact absurd h1 hab

theorem pathLe_eq_of_both (a b : List Char) (h1 : pathLe a b = true)
    (h2 : pathLe b a = true) : componentsOf a = componentsOf b := by
  rw [pathLe_iff] at h1 h2
  rw [pathCmp_swap a b] at h2
  rcases h : pathCmp a b with _ | _ | _
  · rw [h] at h2
    exact absurd rfl h2
  · exact (compsCmp_eq_iff _ _).mp h
  · exact absurd h h1

theorem ordInsert_perm {α : Type} (le : α → α → Bool) (a : α) :
    ∀ (l : List α), List.Perm (ordInsert le a l) (a :: l)
  | [] => List.Perm.refl _
  | b :: l => by
    simp only [ordInsert]
    by_cases h : le a b
    · rw [if_pos h]
    · rw [if_neg h]
      exact ((ordInsert_perm le a l).cons b).trans (List.Perm.swap a b l)

theorem insSort_perm {α : Type} (le : α → α → Bool) :
    ∀ (l : List α), List.Perm (insSort le l) l
  | [] => List.Perm.refl _
  | a :: l => (ordInsert_perm le a (insSort le l)).trans ((insSort_perm le l).cons a)

theorem ordInsert_pairwise {α : Type} (le : α → α → Bool)
    (htot : ∀ x y, le x y = true ∨ le y x = true)
    (htrans : ∀ x y z, le x y = true → le y z = true → le x z = true)
    (a : α) : ∀ (l : List α), l.Pairwise (fun x y => le x y = true) →
    (ordInsert le a l).Pairwise (fun x y => le x y = true)
  | [], _ => by simp [ordInsert]
  | b :: l, hp => by
    simp only [ordInsert]
    rcases List.pairwise_cons.mp hp with ⟨hb, hl⟩
    by_cases h : le a b = true
    · rw [if_pos h]
      refine List.pairwise_cons.mpr ⟨?_, hp⟩
      intro x hx
      rcases List.mem_cons.mp hx with rfl | hx2
      · exact h
      · exact htrans a b x h (hb x hx2)
    · rw [if_neg h]
      have hba : le b a = true := (htot a b).resolve_left h
      refine List.pairwise_cons.mpr ⟨?_, ordInsert_pairwise le htot htrans a l hl⟩
      intro x hx
      have hx' := (ordInsert_perm le a l).mem_iff.mp hx
      rcases List.mem_cons.mp hx' with rfl | hx2
      · exact hba
      · exact hb x hx2

theorem insSort_pairwise {α : Type} (le : α → α → Bool)
    (htot : ∀ x y, le x y = true ∨ le y x = true)
    (htrans : ∀ x y z, le x y = true → le y z = true → le x z = true) :
    ∀ (l : List α), (insSort le l).Pairwise (fun x y => le x y = true)
  | [] => List.Pairwise.nil
  | a :: l => ordInsert_pairwise le htot htrans a _ (insSort_pairwise le htot htrans l)

/-- Two sorted permutations of one another coincide when the order is
antisymmetric on the elements present. -/
theorem sorted_perm_eq {α : Type} (le : α → α → Bool) :
    ∀ (l1 l2 : List α),
    (∀ a ∈ l1, ∀ b ∈ l1, le a b = true → le b a = true → a = b) →
    List.Perm l1 l2 →
    l1.Pairwise (fun x y => le x y = true) →
    l2.Pairwise (fun x y => le x y = true) → l1 = l2
  | [], l2, _, hperm, _, _ => (hperm.symm.eq_nil).symm
  | a :: t1, l2, hanti, hperm, hp1, hp2 => by
    cases l2 with
    | nil => exact absurd hperm.eq_nil (by simp)
    | cons b t2 =>
      have hmem_a : a ∈ b :: t2 := hperm.mem_iff.mp (List.mem_cons_self a t1)
      have hmem_b : b ∈ a :: t1 := hperm.symm.mem_iff.mp (List.mem_cons_self b t2)
      have hab : a = b := by
        rcases List.mem_cons.mp hmem_a with h | ha2
        · exact h
        · rcases List.mem_cons.mp hmem_b with h | hb2
          · exact h.symm
          · have h1 : le a b = true := (List.pairwise_cons.mp hp1).1 b hb2
            have h2 : le b a = true := (List.pairwise_cons.mp hp2).1 a ha2
            exact hanti a (List.mem_cons_self a t1) b hmem_b h1 h2
      subst hab
      have hperm' : List.Perm t1 t2 := hperm.cons_inv
      have heq : t1 = t2 :=
        sorted_perm_eq le t1 t2
          (fun x hx y hy => hanti x (List.mem_cons_of_mem a hx) y (List.mem_cons_of_mem a hy))
          hperm' (List.pairwise_cons.mp hp1).2 (List.pairwise_cons.mp hp2).2
      rw [heq]

/-- Stable sorts of permuted inputs coincide when no two distinct elements
compare equal as paths. -/
theorem sortPaths_perm_eq (l1 l2 : List (List Char))
    (hinj : ∀ a ∈ l1, ∀ b ∈ l1, componentsOf a = componentsOf b → a = b)
    (hperm : List.Perm l1 l2) : sortPaths l1 = sortPaths l2 := by
  have hs1 := insSort_pairwise pathLe pathLe_total pathLe_trans l1
  have hs2 := insSort_pairwise pathLe pathLe_total pathLe_trans l2
  have hp : List.Perm (sortPaths l1) (sortPaths l2) :=
    ((insSort_perm pathLe l1).trans hperm).trans (insSort_perm pathLe l2).symm
  apply sorted_perm_eq pathLe (sortPaths l1) (sortPaths l2) _ hp hs1 hs2
  intro a ha b hb h1 h2
  have ha' : a ∈ l1 := (insSort_perm pathLe l1).mem_iff.mp ha
  have hb' : b ∈ l1 := (insSort_perm pathLe l1).mem_iff.mp hb
  exact hinj a ha' b hb' (pathLe_eq_of_both a b h1 h2)

/-- The fold of `hash_files` computes exactly the specification's stream. -/
theorem hashFilesGo_stream (fs : FS) : ∀ (l : List (List Char)) (ctx : List Nat),
    hashFilesGo fs l ctx =
      match filesStream fs l with
      | none => .error .ioError
      | some s => .ok (ctx ++ s)
  | [], ctx => by simp [hashFilesGo, filesStream]
  | p :: rest, ctx => by
    simp only [hashFilesGo, filesStream]
    cases hr : fs.readFile p with
    | none => rfl
    | some c =>
      cases hs : filesStream fs rest with
      | none =>
        show hashFilesGo fs rest (ctx ++ charCodes p ++ [10] ++ c ++ [10]) =
          Except.error PErr.ioError
        rw [hashFilesGo_stream fs rest _, hs]
      | some s =>
        show hashFilesGo fs rest (ctx ++ charCodes p ++ [10] ++ c ++ [10]) =
          Except.ok (ctx ++ (charCodes p ++ [10] ++ c ++ [10] ++ s))
        rw [hashFilesGo_stream fs rest _, hs]
        simp [List.append_assoc]

/-- C5 (amended): `hash_files` first sorts the paths with Rust `PathBuf`
ordering (lexicographic over normalized components, components compared
byte-wise) — not by raw string bytes — and then folds a single digest
context by feeding, per path in that order: the path's bytes, one
separator byte, the file's contents, and one trailing separator byte. -/
theorem hash_files_sorted_fold (fs : FS) (paths : List (List Char)) :
    hash_files fs paths = specHashMany fs paths := by
  unfold hash_files specHashMany sortPaths
  rw [hashFilesGo_stream fs (insSort pathLe paths) []]
  cases filesStream fs (insSort pathLe paths) with
  | none => rfl
  | some s => simp

/-- C5 (counterexample): on the path list `["a!b", "a/b"]` the digest of
`hash_files` differs from the digest obtained by sorting the paths by
their string representation byte-wise, because `"a/b" < "a!b"` as paths
while `"a!b" < "a/b"` as strings. -/
theorem hash_files_string_sort_refuted :
    hash_files fsA [chars "a!b", chars "a/b"] ≠
      specHashManyStrSort fsA [chars "a!b", chars "a/b"] := by decide

/-- C9 (amended): `hash_files` is invariant to the input ordering of its
path list provided no two textually distinct entries denote the same
normalized path; distinct spellings of one path (such as `a//b` beside
`a/b`) tie under the sort key and keep their input order under the
stable sort. -/
theorem hash_files_perm_invariant (fs : FS) (l1 l2 : List (List Char))
    (hperm : List.Perm l1 l2)
    (hinj : ∀ a ∈ l1, ∀ b ∈ l1, componentsOf a = componentsOf b → a = b) :
    hash_files fs l1 = hash_files fs l2 := by
  unfold hash_files
  rw [sortPaths_perm_eq l1 l2 hinj hperm]

theorem hash_files_perm_invariant_inst :
    hash_files fsA [chars "a", chars "b"] = hash_files fsA [chars "b", chars "a"] :=
  hash_files_perm_invariant fsA [chars "a", chars "b"] [chars "b", chars "a"]
    (List.Perm.swap (chars "b") (chars "a") []) (by decide)

/-- C9 (counterexample): the lists `["a//b", "a/b"]` and
`["a/b", "a//b"]` contain the same paths with the same contents, yet
`hash_files` yields different digests: the two spellings compare equal
as paths, so the stable sort keeps each input order. -/
theorem hash_files_order_sensitive :
    hash_files fsA [chars "a//b", chars "a/b"] ≠
      hash_files fsA [chars "a/b", chars "a//b"] := by decide

/-- C1: `check_entry` classifies in a fixed order: an absent hash yields
`Invalid` regardless of filesystem state; a resolution error or an empty
resolution yields `Missing`; a failing digest computation yields
`Missing`; otherwise the current digest equal to the stored hash yields
`Current` and a differing digest yields `Drifted`, with the freshly
computed digest returned alongside the status. -/
theorem check_entry_cases (fs : FS) (r : PathResolver) (e : WatchEntry) :
    (e.hash = none → check_entry fs r e = (Status.invalid, none)) ∧
    (∀ stored, e.hash = some stored →
      (∀ er, r.resolve fs e.pattern = .error er →
        check_entry fs r e = (Status.missing, none)) ∧
      (r.resolve fs e.pattern = .ok [] →
        check_entry fs r e = (Status.missing, none)) ∧
      (∀ paths, r.resolve fs e.pattern = .ok paths → paths ≠ [] →
        (∀ er2, r.hash_pattern fs e.pattern = .error er2 →
          check_entry fs r e = (Status.missing, none)) ∧
        (∀ cur, r.hash_pattern fs e.pattern = .ok cur →
          (cur = stored → check_entry fs r e = (Status.current, some cur)) ∧
          (cur ≠ stored → check_entry fs r e = (Status.drifted, some cur))))) := by
  constructor
  · intro h
    simp [check_entry, h]
  · intro stored hst
    refine ⟨?_, ?_, ?_⟩
    · intro er hres
      simp [check_entry, hst, hres]
    · intro hres
      simp [check_entry, hst, hres]
    · intro paths hres hne
      have hie : paths.isEmpty = false := by
        cases paths with
        | nil => exact absurd rfl hne
        | cons a t => rfl
      constructor
      · intro er2 hhp
        simp [check_entry, hst, hres, hie, hhp]
      · intro cur hhp
        constructor
        · intro hc
          simp [check_entry, hst, hres, hie, hhp, hc]
        · intro hc
          simp [check_entry, hst, hres, hie, hhp, hc]

theorem check_entry_cases_inst :
    check_entry fsB rB { pattern := chars "f.txt", hash := none } =
      (Status.invalid, none) ∧
    check_entry fsB rB { pattern := chars "f.txt", hash := some (chars "7;") } =
      (Status.current, some (chars "7;")) :=
  ⟨(check_entry_cases fsB rB { pattern := chars "f.txt", hash := none }).1 rfl,
   (((check_entry_cases fsB rB
        { pattern := chars "f.txt", hash := some (chars "7;") }).2
      (chars "7;") rfl).2.2 [chars "d/f.txt"] rfl (by decide)).2
      (chars "7;") rfl |>.1 rfl⟩

/-- C3: on a document whose closing delimiter immediately follows the
opening one, `parse` takes the out-of-range slice `&rest[1..close_pos]`
with `close_pos = 0` — a Rust panic, not a returned `Result`.  The
specification's total `Result` contract is the intent; the slice bound
is the slip. -/
theorem parse_panics_on_empty_block :
    parse (chars "---\n---\n# Doc") = PRes.panics := by decide

/-- C4: given the resolution of a pattern, `hash_pattern` fails with
`NoMatch` on an empty set, dispatches a single directory to
`hash_directory` and a single file to `hash_file`, and on several paths
filters out non-files, failing with `NoMatch` when no file remains and
otherwise delegating to `hash_files` on the remaining files.  The
well-formedness hypothesis states no path is both file and directory. -/
theorem hash_pattern_dispatch (fs : FS) (r : PathResolver) (pat : List Char)
    (hwf : ∀ p, ¬ (fs.isFile p = true ∧ fs.isDir p = true)) :
    ∀ paths, r.resolve fs pat = .ok paths →
      (paths = [] → r.hash_pattern fs pat = .error .noMatch) ∧
      (∀ p, paths = [p] →
        (fs.isDir p = true → r.hash_pattern fs pat = hash_directory fs p) ∧
        (fs.isFile p = true → r.hash_pattern fs pat = hash_file fs p)) ∧
      (2 ≤ paths.length →
        (paths.filter fs.isFile = [] → r.hash_pattern fs pat = .error .noMatch) ∧
        (paths.filter fs.isFile ≠ [] →
          r.hash_pattern fs pat = hash_files fs (paths.filter fs.isFile))) := by
  intro paths hres
  refine ⟨?_, ?_, ?_⟩
  · intro hnil
    subst hnil
    simp [PathResolver.hash_pattern, hres]
  · intro p hp
    subst hp
    constructor
    · intro hdir
      simp [PathResolver.hash_pattern, hres, hdir]
    · intro hfile
      have hnd : fs.isDir p = false := by
        rcases hd : fs.isDir p
        · rfl
        · exact absurd ⟨hfile, hd⟩ (hwf p)
      simp [PathResolver.hash_pattern, hres, hnd]
  · intro hlen
    cases paths with
    | nil => simp at hlen
    | cons p t =>
      cases t with
      | nil => simp at hlen
      | cons q t2 =>
        constructor
        · intro hfil
          simp [PathResolver.hash_pattern, hres, hfil]
        · intro hfil
          have hie : ((p :: q :: t2).filter fs.isFile).isEmpty = false := by
            cases hq : (p :: q :: t2).filter fs.isFile with
            | nil => exact absurd hq hfil
            | cons a b => rfl
          simp [PathResolver.hash_pattern, hres, hie]

theorem hash_pattern_dispatch_inst :
    rB.hash_pattern fsB (chars "f.txt") = hash_file fsB (chars "d/f.txt") :=
  (((hash_pattern_dispatch fsB rB (chars "f.txt")
      (fun _ h => Bool.noConfusion h.2))
    [chars "d/f.txt"] rfl).2.1 (chars "d/f.txt") rfl).2 (by decide)

theorem prefix_antisymm {α : Type} {a b : List α} (h1 : a <+: b) (h2 : b <+: a) :
    a = b :=
  h1.eq_of_length (Nat.le_antisymm h1.length_le h2.length_le)

theorem prefix_dropLast {α : Type} {l' l : List α} (h : l' <+: l) (hne : l' ≠ l) :
    l' <+: l.dropLast := by
  have hlt : l'.length < l.length := by
    rcases Nat.lt_or_ge l'.length l.length with h1 | h1
    · exact h1
    · exact absurd (h.eq_of_length (Nat.le_antisymm h.length_le h1)) hne
  rw [List.dropLast_eq_take]
  exact List.prefix_take_iff.mpr ⟨h, by omega⟩

/-- The reversed walk returns the longest marked prefix it visits. -/
theorem findRootRev_spec (fs : FS) : ∀ (rev rc : List PathComp),
    findRootRev fs rev = some rc →
    rc <+: rev.reverse ∧ marked fs rc = true ∧
      ∀ rc2, rc <+: rc2 → rc2 <+: rev.reverse → rc2 ≠ rc → marked fs rc2 = false
  | [], rc, h => by
    simp only [findRootRev] at h
    by_cases hm : marked fs [] = true
    · rw [if_pos hm] at h
      injection h with h
      subst h
      refine ⟨⟨[], rfl⟩, hm, ?_⟩
      intro rc2 h1 h2 hne
      have h0 : rc2 = [] := by
        obtain ⟨t, ht⟩ := h2
        exact (List.append_eq_nil.mp ht).1
      exact absurd h0 hne
    · rw [if_neg hm] at h
      exact Option.noConfusion h
  | c :: rest, rc, h => by
    simp only [findRootRev] at h
    by_cases hm : marked fs ((c :: rest).reverse) = true
    · rw [if_pos hm] at h
      injection h with h
      subst h
      refine ⟨⟨[], List.append_nil _⟩, hm, ?_⟩
      intro rc2 h1 h2 hne
      exact absurd (prefix_antisymm h2 h1) hne
    · rw [if_neg hm] at h
      by_cases hstop : rest = [] ∧ c = PathComp.rootDir
      · rw [if_pos hstop] at h
        exact Option.noConfusion h
      · rw [if_neg hstop] at h
        have ih := findRootRev_spec fs rest rc h
        have hpre : rest.reverse <+: (c :: rest).reverse := by
          rw [List.reverse_cons]
          exact ⟨[c], rfl⟩
        refine ⟨ih.1.trans hpre, ih.2.1, ?_⟩
        intro rc2 h1 h2 hne
        by_cases hc2 : rc2 = (c :: rest).reverse
        · subst hc2
          exact Bool.eq_false_iff.mpr hm
        · have h3 : rc2 <+: rest.reverse := by
            have hd := prefix_dropLast h2 hc2
            rwa [List.reverse_cons, List.dropLast_concat] at hd
          exact ih.2.2 rc2 h1 h3 hne

theorem findRoot_spec (fs : FS) (comps rc : List PathComp)
    (h : findProjectRootAux fs comps = some rc) :
    rc <+: comps ∧ marked fs rc = true ∧
      ∀ rc2, rc <+: rc2 → rc2 <+: comps → rc2 ≠ rc → marked fs rc2 = false := by
  have hs := findRootRev_spec fs comps.reverse rc h
  rwa [List.reverse_reverse] at hs

/-- C8: a pattern carrying the `$ROOT/` prefix is resolved with the prefix
stripped against the resolver's project root, any other pattern against
the document directory with the pattern unchanged; and the project root
recorded by `PathResolver::new` is the nearest marked ancestor-or-self of
the walk start derived from the document's directory, at any depth. -/
theorem resolve_bases :
    (∀ (r : PathResolver) (fs : FS) (stripped : List Char),
      r.resolve fs (chars "$ROOT/" ++ stripped) =
        resolve_from fs r.project_root stripped) ∧
    (∀ (r : PathResolver) (fs : FS) (pat : List Char),
      (chars "$ROOT/").isPrefixOf pat = false →
      r.resolve fs pat = resolve_from fs r.doc_dir pat) ∧
    (∀ (fs : FS) (docPath : List Char) (r : PathResolver),
      PathResolver.new fs docPath = some r →
      r.doc_dir = docDirOf docPath ∧
      ∃ rc, r.project_root = renderComps rc ∧
        rc <+: componentsOf (startOf fs docPath) ∧
        marked fs rc = true ∧
        ∀ rc2, rc <+: rc2 → rc2 <+: componentsOf (startOf fs docPath) →
          rc2 ≠ rc → marked fs rc2 = false) := by
  refine ⟨?_, ?_, ?_⟩
  · intro r fs stripped
    unfold PathResolver.resolve
    have hpre : (chars "$ROOT/").isPrefixOf (chars "$ROOT/" ++ stripped) = true :=
      (isPrefixOf_eq _ _).mpr ⟨stripped, rfl⟩
    rw [if_pos hpre]
    congr 1
  · intro r fs pat hpre
    unfold PathResolver.resolve
    rw [if_neg (by simp [hpre])]
  · intro fs docPath r hnew
    unfold PathResolver.new at hnew
    cases hf : findProjectRootAux fs (componentsOf (startOf fs docPath)) with
    | none =>
      rw [hf] at hnew
      exact Option.noConfusion hnew
    | some rc =>
      rw [hf] at hnew
      injection hnew with hnew
      subst hnew
      have hs := findRoot_spec fs (componentsOf (startOf fs docPath)) rc hf
      exact ⟨rfl, rc, rfl, hs.1, hs.2.1, hs.2.2⟩

theorem resolve_bases_inst :
    rB.resolve fsB (chars "$ROOT/" ++ chars "x") =
      resolve_from fsB rB.project_root (chars "x") ∧
    rB.resolve fsB (chars "f.txt") = resolve_from fsB rB.doc_dir (chars "f.txt") ∧
    (rB.doc_dir = docDirOf (chars "d/f.md") ∧
     ∃ rc, rB.project_root = renderComps rc ∧
       rc <+: componentsOf (startOf fsB (chars "d/f.md")) ∧
       marked fsB rc = true ∧
       ∀ rc2, rc <+: rc2 → rc2 <+: componentsOf (startOf fsB (chars "d/f.md")) →
         rc2 ≠ rc → marked fsB rc2 = false) :=
  ⟨resolve_bases.1 rB fsB (chars "x"),
   resolve_bases.2.1 rB fsB (chars "f.txt") (by decide),
   resolve_bases.2.2 fsB (chars "d/f.md") rB (by decide)⟩

/-- C10: a status is a problem exactly when it is `Drifted` or `Missing`,
and the report command exits with code 1 exactly when at least one
evaluated entry's status is `Drifted` or `Missing`; `Invalid` and
`Current` statuses never by themselves cause a failure exit. -/
theorem report_exit_problems :
    (∀ s : Status, s.is_problem = true ↔ (s = Status.drifted ∨ s = Status.missing)) ∧
    (∀ (fs : FS) (docs : List (List Char × List Char)) (code : Nat),
      report_run fs docs = some code →
      (code = 1 ↔ ∃ s ∈ report_statuses fs docs,
        s = Status.drifted ∨ s = Status.missing)) := by
  constructor
  · intro s
    cases s <;> simp [Status.is_problem]
  · intro fs docs code hrun
    unfold report_run at hrun
    split at hrun
    · exact Option.noConfusion hrun
    · injection hrun with hrun
      subst hrun
      by_cases hb : (report_statuses fs docs).any Status.is_problem = true
      · rw [if_pos hb]
        constructor
        · intro _
          obtain ⟨s, hs, hps⟩ := List.any_eq_true.mp hb
          refine ⟨s, hs, ?_⟩
          cases s <;> simp_all [Status.is_problem]
        · intro _
          rfl
      · rw [if_neg hb]
        constructor
        · intro h01
          exact absurd h01 (by decide)
        · rintro ⟨s, hs, hsp⟩
          exfalso
          apply hb
          apply List.any_eq_true.mpr
          refine ⟨s, hs, ?_⟩
          rcases hsp with rfl | rfl <;> rfl

theorem report_exit_problems_inst :
    (Status.invalid.is_problem = true ↔
      (Status.invalid = Status.drifted ∨ Status.invalid = Status.missing)) ∧
    ((0 : Nat) = 1 ↔ ∃ s ∈ report_statuses fsB docsC10,
      s = Status.drifted ∨ s = Status.missing) :=
  ⟨report_exit_problems.1 Status.invalid,
   report_exit_problems.2 fsB docsC10 0 (by decide)⟩

theorem splitNL_ne_nil : ∀ (s : List Char), splitNL s ≠ []
  | [] => by simp [splitNL]
  | c :: t => by
    simp only [splitNL]
    by_cases h : c = nl
    · rw [if_pos h]
      simp
    · rw [if_neg h]
      cases hs : splitNL t with
      | nil => simp
      | cons p ps => simp

/-- A newline-free needle is a prefix of a text exactly when it is a prefix
of the text's first line. -/
theorem prefix_head_line : ∀ (m' t : List Char), nl ∉ m' →
    (m' <+: t ↔ m' <+: (splitNL t).headD [])
  | [], t, _ => by
    constructor <;> intro <;> exact ⟨_, rfl⟩
  | a :: m'', [], _ => Iff.rfl
  | a :: m'', c :: t', hnm => by
    by_cases hc : c = nl
    · subst hc
      have ha : a ≠ nl := fun h => hnm (h ▸ List.mem_cons_self a m'')
      constructor
      · intro h
        rw [List.cons_prefix_cons] at h
        exact absurd h.1 ha
      · intro h
        have hh : (splitNL (nl :: t')).headD [] = [] := by simp [splitNL]
        rw [hh] at h
        obtain ⟨u, hu⟩ := h
        exact absurd hu (by simp)
    · have hsp : splitNL (c :: t') = (c :: (splitNL t').headD []) :: (splitNL t').tail := by
        simp only [splitNL, if_neg hc]
        cases hs : splitNL t' with
        | nil => exact absurd hs (splitNL_ne_nil t')
        | cons p ps => simp
      rw [hsp]
      simp only [List.headD_cons]
      rw [List.cons_prefix_cons, List.cons_prefix_cons]
      exact and_congr Iff.rfl
        (prefix_head_line m'' t' (fun h => hnm (List.mem_cons_of_mem a h)))

/-- A needle of the shape newline-then-text occurs in a document exactly
when some line after the first starts with the text. -/
theorem contains_nl_lines : ∀ (s m' : List Char), nl ∉ m' →
    (containsSub s (nl :: m') = true ↔ ∃ l ∈ (splitNL s).tail, m' <+: l)
  | [], m', _ => by
    constructor
    · intro h
      exact absurd h (by simp [containsSub, List.isPrefixOf])
    · rintro ⟨l, hl, _⟩
      exact absurd hl (by simp [splitNL])
  | c :: t, m', hnm => by
    obtain ⟨p, ps, hs⟩ : ∃ p ps, splitNL t = p :: ps := by
      cases hs : splitNL t with
      | nil => exact absurd hs (splitNL_ne_nil t)
      | cons p ps => exact ⟨p, ps, rfl⟩
    by_cases hc : c = nl
    · subst hc
      have hsp : (splitNL (nl :: t)).tail = p :: ps := by simp [splitNL, hs]
      rw [hsp]
      simp only [containsSub, Bool.or_eq_true]
      rw [isPrefixOf_eq, List.cons_prefix_cons]
      rw [contains_nl_lines t m' hnm, hs]
      rw [prefix_head_line m' t hnm, hs]
      simp only [List.headD_cons, List.tail_cons]
      constructor
      · rintro (⟨_, hh⟩ | ⟨l, hl, hp2⟩)
        · exact ⟨p, List.mem_cons_self p ps, hh⟩
        · exact ⟨l, List.mem_cons_of_mem p hl, hp2⟩
      · rintro ⟨l, hl, hp2⟩
        rcases List.mem_cons.mp hl with rfl | hl2
        · exact Or.inl ⟨by trivial, hp2⟩
        · exact Or.inr ⟨l, hl2, hp2⟩
    · have ha : ¬ ((nl :: m').isPrefixOf (c :: t) = true) := by
        intro h
        rw [isPrefixOf_eq, List.cons_prefix_cons] at h
        exact hc h.1.symm
      have hsp : (splitNL (c :: t)).tail = ps := by
        simp only [splitNL, if_neg hc, hs]
        rfl
      rw [hsp]
      simp only [containsSub, Bool.or_eq_true]
      rw [contains_nl_lines t m' hnm, hs]
      simp only [List.tail_cons]
      constructor
      · rintro (h | h)
        · exact absurd h ha
        · exact h
      · exact Or.inr

/-- C7 (amended): `parse` returns absent exactly when the text does not
begin with the opening delimiter; when present, `parse` fails with
`MalformedBlock` exactly when no later line begins with `---` — a line
beginning with `---` followed by trailing characters does close the
block (the first newline-then-`---` occurrence is taken). -/
theorem parse_close_scan (c : List Char) :
    (parse c = PRes.ok none ↔ (chars "---").isPrefixOf c = false) ∧
    ((chars "---").isPrefixOf c = true →
      (parse c = PRes.err FmErr.malformedBlock ↔
        ∀ l ∈ (splitNL (c.drop 3)).tail, ¬ dashes <+: l)) := by
  have hnd : chars "\n---" = nl :: dashes := rfl
  constructor
  · constructor
    · intro h
      cases hb : (chars "---").isPrefixOf c with
      | false => rfl
      | true =>
        exfalso
        unfold parse at h
        rw [if_pos hb] at h
        split at h
        · exact PRes.noConfusion h
        · split at h
          · exact PRes.noConfusion h
          · split at h
            · exact PRes.noConfusion h
            · injection h with h
              exact Option.noConfusion h
    · intro h
      unfold parse
      rw [if_neg (by simp [h])]
  · intro hp
    unfold parse
    rw [if_pos hp]
    have hocc := contains_nl_lines (c.drop 3) dashes (by decide)
    constructor
    · intro h
      split at h
      · rename_i hf
        have hnone := (findSub_none_iff _ _).mp (hnd ▸ hf)
        intro l hl hdl
        have htrue : containsSub (c.drop 3) (nl :: dashes) = true :=
          hocc.mpr ⟨l, hl, hdl⟩
        rw [htrue] at hnone
        exact Bool.noConfusion hnone
      · exfalso
        split at h
        · exact PRes.noConfusion h
        · split at h
          · injection h with h
            exact FmErr.noConfusion h
          · exact PRes.noConfusion h
    · intro hall
      rcases hf : findSub (c.drop 3) (chars "\n---") with _ | cp
      · rfl
      · exfalso
        have hfn : findSub (c.drop 3) (nl :: dashes) ≠ none := by
          rw [← hnd, hf]
          simp
        have hcon : containsSub (c.drop 3) (nl :: dashes) = true := by
          rcases hcc : containsSub (c.drop 3) (nl :: dashes) with _ | _
          · exact absurd ((findSub_none_iff _ _).mpr hcc) hfn
          · rfl
        obtain ⟨l, hl, hdl⟩ := hocc.mp hcon
        exact hall l hl hdl

/-- C7 (counterexample): in `"---\na: b\n---xyz"` no later line is the bare
closing delimiter on its own, yet `parse` does not fail with
`MalformedBlock` — the trailing characters after `---` are accepted. -/
theorem parse_close_trailing_example :
    (∀ l ∈ (splitNL ((chars "---\na: b\n---xyz").drop 3)).tail, l ≠ chars "---") ∧
    parse (chars "---\na: b\n---xyz") ≠ PRes.err FmErr.malformedBlock := by decide

theorem parse_close_scan_inst :
    (parse (chars "hello") = PRes.ok none ↔
      (chars "---").isPrefixOf (chars "hello") = false) ∧
    (parse (chars "---\na: b\nno close") = PRes.err FmErr.malformedBlock ↔
      ∀ l ∈ (splitNL ((chars "---\na: b\nno close").drop 3)).tail, ¬ dashes <+: l) :=
  ⟨(parse_close_scan (chars "hello")).1,
   (parse_close_scan (chars "---\na: b\nno close")).2 (by decide)⟩

/-- The replacement pass rewrites exactly the first matching line. -/
theorem updateLines_spec (pattern newHash : List Char) :
    ∀ (ls r : List (List Char)), updateLines pattern newHash ls = some r →
    ∃ i l, ls[i]? = some l ∧ matchesEntryLine pattern l = true ∧
      (∀ j, j < i → ∀ l', ls[j]? = some l' → matchesEntryLine pattern l' = false) ∧
      r = ls.set i (replLine pattern newHash l)
  | [], r, h => Option.noConfusion h
  | l :: rest, r, h => by
    simp only [updateLines] at h
    by_cases hm : matchesEntryLine pattern l = true
    · rw [if_pos hm] at h
      injection h with h
      subst h
      refine ⟨0, l, by simp, hm, ?_, rfl⟩
      intro j hj l' _
      omega
    · rw [if_neg hm] at h
      rcases hrec : updateLines pattern newHash rest with _ | r' <;> rw [hrec] at h
      · exact Option.noConfusion h
      · injection h with h
        subst h
        obtain ⟨i, l2, h1, h2, h3, h4⟩ := updateLines_spec pattern newHash rest r' hrec
        refine ⟨i + 1, l2, by simpa using h1, h2, ?_, by rw [h4]; rfl⟩
        intro j hj l' hl'
        cases j with
        | zero =>
          have hll : l = l' := by simpa using hl'
          subst hll
          exact Bool.eq_false_iff.mpr hm
        | succ j' =>
          have hj' : j' < i := by omega
          exact h3 j' hj' l' (by simpa using hl')

/-- C2 (amended): a successful `update_entry` replaces exactly the first
line matching the pattern with the canonical double-quoted form
`indent ++ "- \"pattern\": new_hash"` (original indentation preserved,
quoting normalized to double quotes), leaves every other line unchanged,
and reassembles the document from Rust `lines()` with `\n` separators
plus one final newline — newline-terminated CRLF endings are normalized
to LF, a final line without a terminating newline is kept verbatim (a
bare trailing `'\r'` included), and a missing final newline is
appended. -/
theorem update_entry_line_frame (content pattern newHash out : List Char)
    (h : update_entry content pattern newHash = .ok out) :
    ∃ i l, (linesRust content)[i]? = some l ∧
      matchesEntryLine pattern l = true ∧
      (∀ j, j < i → ∀ l', (linesRust content)[j]? = some l' →
        matchesEntryLine pattern l' = false) ∧
      out = interNL ((linesRust content).set i (replLine pattern newHash l)) ++ [nl] := by
  unfold update_entry at h
  split at h
  · exact PRes.noConfusion h
  · rename_i r hr
    injection h with h
    subst h
    obtain ⟨i, l, h1, h2, h3, h4⟩ := updateLines_spec pattern newHash (linesRust content) r hr
    exact ⟨i, l, h1, h2, h3, by rw [h4]⟩

/-- C2 (counterexample): updating pattern `p` in a document whose entry
line is unquoted and whose last line lacks a newline rewrites the key's
quoting to double quotes and appends a final newline — bytes outside the
hash value change, and the output is not the claimed minimal edit. -/
theorem update_entry_rewrite_example :
    update_entry (chars "---\ndriftwatcher:\n  - p: h\n---\nbody")
        (chars "p") (chars "h2")
      = PRes.ok (chars "---\ndriftwatcher:\n  - \"p\": h2\n---\nbody\n") ∧
    chars "---\ndriftwatcher:\n  - \"p\": h2\n---\nbody\n" ≠
      chars "---\ndriftwatcher:\n  - p: h2\n---\nbody" := by decide

theorem update_entry_line_frame_inst :
    ∃ i l, (linesRust (chars "---\ndriftwatcher:\n  - \"p\": h\n---\nb\n"))[i]? = some l ∧
      matchesEntryLine (chars "p") l = true ∧
      (∀ j, j < i → ∀ l',
        (linesRust (chars "---\ndriftwatcher:\n  - \"p\": h\n---\nb\n"))[j]? = some l' →
        matchesEntryLine (chars "p") l' = false) ∧
      chars "---\ndriftwatcher:\n  - \"p\": h2\n---\nb\n" =
        interNL ((linesRust (chars "---\ndriftwatcher:\n  - \"p\": h\n---\nb\n")).set i
          (replLine (chars "p") (chars "h2") l)) ++ [nl] :=
  update_entry_line_frame (chars "---\ndriftwatcher:\n  - \"p\": h\n---\nb\n")
    (chars "p") (chars "h2")
    (chars "---\ndriftwatcher:\n  - \"p\": h2\n---\nb\n") (by decide)

theorem flLines_append : ∀ (xs ys : List (List Char)),
    flLines (xs ++ ys) = flLines xs ++ flLines ys
  | [], ys => rfl
  | l :: xs, ys => by
    show nl :: (l ++ flLines (xs ++ ys)) = (nl :: (l ++ flLines xs)) ++ flLines ys
    rw [flLines_append xs ys]
    simp [List.append_assoc]

theorem containsSub_append_right {x y m : List Char} (h : containsSub y m = true) :
    containsSub (x ++ y) m = true := by
  obtain ⟨s, t, hst⟩ := (containsSub_iff y m).mp h
  exact (containsSub_iff _ m).mpr ⟨x ++ s, t, by rw [hst]; simp [List.append_assoc]⟩

theorem containsSub_flLines_mem : ∀ (ls : List (List Char)) (l : List Char), l ∈ ls →
    containsSub (flLines ls) l = true
  | [], l, hl => absurd hl (by simp)
  | l0 :: ls', l, hl => by
    rcases List.mem_cons.mp hl with rfl | hl2
    · exact (containsSub_iff _ _).mpr ⟨[nl], flLines ls', by simp [flLines]⟩
    · show containsSub (nl :: (l0 ++ flLines ls')) l = true
      apply containsSub_cons
      apply containsSub_append_right
      exact containsSub_flLines_mem ls' l hl2

theorem containsSub_interNL_mem (ls : List (List Char)) (l : List Char) (hl : l ∈ ls) :
    containsSub (interNL ls) l = true := by
  cases ls with
  | nil => exact absurd hl (by simp)
  | cons l0 ls' =>
    rw [← fl_eq_inter l0 ls']
    rcases List.mem_cons.mp hl with rfl | hl2
    · exact (containsSub_iff _ _).mpr ⟨[], flLines ls', by simp⟩
    · exact containsSub_append_right (containsSub_flLines_mem ls' l hl2)

theorem renderEntry_shape (e : WatchEntry) :
    renderEntryLine e = ' ' :: ' ' :: '-' :: ' ' :: '"' ::
      (e.pattern ++ '"' :: ':' ::
        (match e.hash with
         | none => []
         | some h => ' ' :: h)) := rfl

theorem renderEntry_not_nl (e : WatchEntry) (he : GoodEntry e) :
    nl ∉ renderEntryLine e := by
  have hk := he.1.2.1
  intro hmem
  rw [renderEntry_shape] at hmem
  simp only [List.mem_cons, List.mem_append] at hmem
  rcases hmem with h | h | h | h | h | (h | h | h | h)
  · exact absurd h (by decide)
  · exact absurd h (by decide)
  · exact absurd h (by decide)
  · exact absurd h (by decide)
  · exact absurd h (by decide)
  · exact hk h
  · exact absurd h (by decide)
  · exact absurd h (by decide)
  · rcases hh : e.hash with _ | hv
    · rw [hh] at h
      exact absurd h (by simp)
    · rw [hh] at h
      rcases List.mem_cons.mp h with h4 | h4
      · exact absurd h4 (by decide)
      · have hgv := he.2
        rw [hh] at hgv
        exact hgv.2.1 h4

theorem renderEntry_not_dash (e : WatchEntry) : ¬ dashes <+: renderEntryLine e := by
  intro h
  rw [renderEntry_shape] at h
  simp only [dashes] at h
  rw [List.cons_prefix_cons] at h
  exact absurd h.1 (by decide)

theorem renderEntry_entryish (e : WatchEntry) : isEntryish (renderEntryLine e) = true := by
  rw [renderEntry_shape]
  rfl

theorem renderEntry_indent (e : WatchEntry) : entryIndent (renderEntryLine e) = 2 := by
  rw [renderEntry_shape]
  rfl

theorem drop_append_len {x z : List Char} (k : Nat) :
    (x ++ z).drop (x.length + k) = z.drop k := by
  induction x with
  | nil => simp
  | cons c x ih =>
    have h1 : x.length + 1 + k = (x.length + k) + 1 := by omega
    show (c :: (x ++ z)).drop ((c :: x).length + k) = z.drop k
    rw [List.length_cons, h1, List.drop_succ_cons, ih]

theorem dropWhile_no_space {h : List Char} (hne : h ≠ []) (hh : h.head? ≠ some ' ') :
    (' ' :: h).dropWhile (fun c => c = ' ') = h := by
  cases h with
  | nil => exact absurd rfl hne
  | cons c h' =>
    have hc : ¬ (c = ' ') := fun he => hh (by rw [he]; rfl)
    simp [List.dropWhile, hc]

theorem prefix_through_nl {m l rest : List Char} (hm : nl ∉ m)
    (h : m <+: l ++ nl :: rest) : m <+: l := by
  rcases prefix_append_cases h with ⟨_, h1⟩ | ⟨hlt, _, h2⟩
  · exact h1
  · exfalso
    cases hd : m.drop l.length with
    | nil =>
      have hlen := congrArg List.length hd
      rw [List.length_drop] at hlen
      simp at hlen
      omega
    | cons a q' =>
      rw [hd, List.cons_prefix_cons] at h2
      have ha : nl ∈ m.drop l.length := by
        rw [hd, h2.1]
        exact List.mem_cons_self _ _
      exact hm (List.drop_subset _ _ ha)

theorem findSub_nl_line : ∀ (l m rest : List Char), m ≠ [] → nl ∉ m →
    containsSub l m = false →
    findSub (l ++ nl :: rest) m = (findSub rest m).map (l.length + 1 + ·)
  | [], m, rest, hne, hnl, _ => by
    have hp : ¬ m.isPrefixOf (nl :: rest) = true := by
      intro hp
      have hpre := (isPrefixOf_eq _ _).mp hp
      cases m with
      | nil => exact hne rfl
      | cons a m' =>
        rw [List.cons_prefix_cons] at hpre
        refine hnl ?_
        rw [← hpre.1]
        exact List.mem_cons_self a m'
    show findSub (nl :: rest) m = (findSub rest m).map (0 + 1 + ·)
    simp only [findSub]
    rw [if_neg hp]
    cases findSub rest m <;> simp [Nat.add_comm]
  | a :: l', m, rest, hne, hnl, hcon => by
    have hcc : (m.isPrefixOf (a :: l') || containsSub l' m) = false := hcon
    have h1 : m.isPrefixOf (a :: l') = false := by
      cases hh : m.isPrefixOf (a :: l')
      · rfl
      · rw [hh] at hcc; simp at hcc
    have h2 : containsSub l' m = false := by
      cases hh : containsSub l' m
      · rfl
      · rw [hh] at hcc; simp at hcc
    have hp : ¬ m.isPrefixOf (a :: (l' ++ nl :: rest)) = true := by
      intro hp
      have hpre := prefix_through_nl (l := a :: l') hnl
        (by rw [List.cons_append]; exact (isPrefixOf_eq _ _).mp hp)
      have := (isPrefixOf_eq m (a :: l')).mpr hpre
      rw [h1] at this
      exact Bool.noConfusion this
    show findSub (a :: (l' ++ nl :: rest)) m = (findSub rest m).map ((a :: l').length + 1 + ·)
    simp only [findSub]
    rw [if_neg hp, findSub_nl_line l' m rest hne hnl h2]
    cases hF : findSub rest m <;> simp [hF]
    omega

theorem findSub_block_skip : ∀ (ls : List (List Char)) (m rest : List Char), m ≠ [] →
    nl ∉ m → (∀ l ∈ ls, containsSub l m = false) →
    findSub (blockOf ls ++ rest) m = (findSub rest m).map ((blockOf ls).length + ·)
  | [], m, rest, _, _, _ => by
    show findSub rest m = (findSub rest m).map (0 + ·)
    cases findSub rest m <;> simp
  | l :: ls, m, rest, hne, hnl, hcon => by
    have hsh : blockOf (l :: ls) ++ rest = l ++ nl :: (blockOf ls ++ rest) := by
      show (l ++ nl :: blockOf ls) ++ rest = _
      simp [List.append_assoc]
    rw [hsh, findSub_nl_line l m _ hne hnl (hcon l (List.mem_cons_self l ls)),
        findSub_block_skip ls m rest hne hnl (fun x hx => hcon x (List.mem_cons_of_mem l hx))]
    have hlen : (blockOf (l :: ls)).length = l.length + 1 + (blockOf ls).length := by
      show (l ++ nl :: blockOf ls).length = _
      simp
      omega
    cases hF : findSub rest m <;> simp [hF, hlen]
    omega

theorem takeWhile_app {α : Type} (p : α → Bool) : ∀ (xs ys : List α),
    (∀ x ∈ xs, p x = true) → (∀ y ∈ ys, p y = false) →
    (xs ++ ys).takeWhile p = xs ∧ (xs ++ ys).dropWhile p = ys
  | [], ys, _, hy => by
    cases ys with
    | nil => exact ⟨rfl, rfl⟩
    | cons y ys' =>
      have hpy := hy y (List.mem_cons_self y ys')
      constructor
      · show List.takeWhile p (y :: ys') = []
        simp [List.takeWhile, hpy]
      · show List.dropWhile p (y :: ys') = y :: ys'
        simp [List.dropWhile, hpy]
  | x :: xs, ys, hx, hy => by
    have hpx := hx x (List.mem_cons_self x xs)
    have ih := takeWhile_app p xs ys (fun a ha => hx a (List.mem_cons_of_mem x ha)) hy
    constructor
    · show List.takeWhile p (x :: (xs ++ ys)) = x :: xs
      simp [List.takeWhile, hpx, ih.1]
    · show List.dropWhile p (x :: (xs ++ ys)) = ys
      simp [List.dropWhile, hpx, ih.2]

theorem entryOfLine_quoted (p rest : List Char) (hq : '"' ∉ p) :
    entryOfLine (' ' :: ' ' :: '-' :: ' ' :: '"' :: (p ++ '"' :: rest)) = valOf p rest := by
  have hfind : findSub (p ++ '"' :: rest) ['"'] = some p.length :=
    findSub_notmem p '"' rest hq
  have h1 : entryOfLine (' ' :: ' ' :: '-' :: ' ' :: '"' :: (p ++ '"' :: rest)) =
      match findSub (p ++ '"' :: rest) ['"'] with
      | none => none
      | some q => valOf ((p ++ '"' :: rest).take q)
          (('"' :: (p ++ '"' :: rest)).drop (q + 2)) := rfl
  rw [h1, hfind]
  show valOf ((p ++ '"' :: rest).take p.length)
      (('"' :: (p ++ '"' :: rest)).drop (p.length + 2)) = valOf p rest
  have hdrop : (('"' :: (p ++ '"' :: rest)) : List Char).drop (p.length + 2) = rest := by
    show (p ++ '"' :: rest).drop (p.length + 1) = rest
    rw [drop_append_len 1]
    rfl
  rw [List.take_left, hdrop]

theorem entryOfLine_render (e : WatchEntry) (he : GoodEntry e) :
    entryOfLine (renderEntryLine e) = some e := by
  obtain ⟨p, hs⟩ := e
  have hne : p ≠ [] := he.1.1
  have hq : '"' ∉ p := he.1.2.2
  cases hs with
  | none =>
    have h0 : renderEntryLine ⟨p, none⟩ =
        ' ' :: ' ' :: '-' :: ' ' :: '"' :: (p ++ '"' :: [':']) := rfl
    have hval : valOf p [':'] = some ⟨p, none⟩ := by
      show (if p = [] then none else some (⟨p, none⟩ : WatchEntry)) = some ⟨p, none⟩
      rw [if_neg hne]
    rw [h0, entryOfLine_quoted p [':'] hq, hval]
  | some hv =>
    have hvne : hv ≠ [] := he.2.1
    have hvh : hv.head? ≠ some ' ' := he.2.2.2
    have h0 : renderEntryLine ⟨p, some hv⟩ =
        ' ' :: ' ' :: '-' :: ' ' :: '"' :: (p ++ '"' :: (':' :: ' ' :: hv)) := rfl
    have hval : valOf p (':' :: ' ' :: hv) = some ⟨p, some hv⟩ := by
      have hv2 : (' ' :: hv).dropWhile (fun c => c = ' ') = hv := dropWhile_no_space hvne hvh
      show (if p = [] then none
            else some (⟨p, if (' ' :: hv).dropWhile (fun c => c = ' ') = [] then none
                           else some ((' ' :: hv).dropWhile (fun c => c = ' '))⟩ : WatchEntry))
          = some ⟨p, some hv⟩
      rw [hv2, if_neg hne, if_neg hvne]
    rw [h0, entryOfLine_quoted p (':' :: ' ' :: hv) hq, hval]

theorem parseEntriesAux_render : ∀ (E : List WatchEntry), (∀ e ∈ E, GoodEntry e) →
    parseEntriesAux 2 (E.map renderEntryLine) = some E
  | [], _ => rfl
  | e :: E, hE => by
    show parseEntriesAux 2 (renderEntryLine e :: E.map renderEntryLine) = some (e :: E)
    simp only [parseEntriesAux]
    rw [if_pos (renderEntry_indent e), entryOfLine_render e (hE e (List.mem_cons_self e E)),
        parseEntriesAux_render E (fun a ha => hE a (List.mem_cons_of_mem e ha))]

theorem parseEntryLinesTop_render (E : List WatchEntry) (hE : ∀ e ∈ E, GoodEntry e) :
    parseEntryLinesTop (E.map renderEntryLine) = some E := by
  cases E with
  | nil => rfl
  | cons e E' =>
    show parseEntryLinesTop (renderEntryLine e :: E'.map renderEntryLine) = some (e :: E')
    simp only [parseEntryLinesTop]
    rw [renderEntry_indent e]
    exact parseEntriesAux_render (e :: E') hE

theorem yamlAfter_good : ∀ (post : List (List Char)), (∀ l ∈ post, GoodOther l) →
    yamlAfter post = some ()
  | [], _ => rfl
  | l :: post, hp => by
    have hg := hp l (List.mem_cons_self l post)
    have h1 : ¬ isBlankL l = true := by simp [hg.2.2.2.2.2]
    have hdw : ¬ l = chars "driftwatcher:" := by
      intro he
      have hc : containsSub l (chars "driftwatcher:") = true := by
        rw [he]
        exact containsSub_of_prefix ⟨[], List.append_nil _⟩
      rw [hg.2.2.1] at hc
      exact Bool.noConfusion hc
    simp only [yamlAfter]
    rw [if_neg h1, if_neg hdw, if_pos hg.2.2.2.1]
    exact yamlAfter_good post (fun x hx => hp x (List.mem_cons_of_mem l hx))

theorem yamlScan_render : ∀ (pre : List (List Char)) (E : List WatchEntry)
    (post : List (List Char)),
    (∀ l ∈ pre, GoodOther l) → (∀ e ∈ E, GoodEntry e) → (∀ l ∈ post, GoodOther l) →
    yamlScan (pre ++ chars "driftwatcher:" :: (E.map renderEntryLine ++ post)) =
      some (some E)
  | [], E, post, _, hE, hpost => by
    show yamlScan (chars "driftwatcher:" :: (E.map renderEntryLine ++ post)) = some (some E)
    simp only [yamlScan]
    rw [if_neg (show ¬ isBlankL (chars "driftwatcher:") = true by decide), if_pos (by trivial)]
    have hsplit := takeWhile_app isEntryish (E.map renderEntryLine) post
      (fun l hl => by
        obtain ⟨e, _, he⟩ := List.mem_map.mp hl
        rw [← he]
        exact renderEntry_entryish e)
      (fun l hl => (hpost l hl).2.2.2.2.1)
    rw [hsplit.1, hsplit.2, parseEntryLinesTop_render E hE, yamlAfter_good post hpost]
  | l :: pre, E, post, hpre, hE, hpost => by
    have hg := hpre l (List.mem_cons_self l pre)
    have h1 : ¬ isBlankL l = true := by simp [hg.2.2.2.2.2]
    have hdw : ¬ l = chars "driftwatcher:" := by
      intro he
      have hc : containsSub l (chars "driftwatcher:") = true := by
        rw [he]
        exact containsSub_of_prefix ⟨[], List.append_nil _⟩
      rw [hg.2.2.1] at hc
      exact Bool.noConfusion hc
    show yamlScan (l :: (pre ++ chars "driftwatcher:" :: (E.map renderEntryLine ++ post))) =
      some (some E)
    simp only [yamlScan]
    rw [if_neg h1, if_neg hdw, if_pos hg.2.2.2.1]
    exact yamlScan_render pre E post (fun x hx => hpre x (List.mem_cons_of_mem l hx)) hE hpost

theorem yamlLines_good (d : TrackedDoc) (hd : GoodDoc d) :
    ∀ l ∈ yamlLinesOf d, nl ∉ l ∧ ¬ dashes <+: l := by
  intro l hl
  rcases List.mem_append.mp hl with h | h
  · exact ⟨(hd.1 l h).1, (hd.1 l h).2.1⟩
  · rcases List.mem_cons.mp h with rfl | h2
    · exact ⟨by decide, by decide⟩
    · rcases List.mem_append.mp h2 with h3 | h3
      · obtain ⟨e, hee, he⟩ := List.mem_map.mp h3
        exact he ▸ ⟨renderEntry_not_nl e (hd.2.1 e hee), renderEntry_not_dash e⟩
      · exact ⟨(hd.2.2 l h3).1, (hd.2.2 l h3).2.1⟩

theorem renderDoc_shape (d : TrackedDoc) :
    renderDoc d = dashes ++ nl :: (blockOf (yamlLinesOf d) ++ (dashes ++ nl :: d.body)) := by
  unfold renderDoc
  rw [show chars "---\n" = dashes ++ [nl] from rfl]
  simp [List.append_assoc]

theorem parse_render (d : TrackedDoc) (hd : GoodDoc d) :
    parse (renderDoc d) =
      PRes.ok (some { entries := d.entries, raw_yaml := interNL (yamlLinesOf d),
                      end_pos := 3 + (flLines (yamlLinesOf d)).length + 4 }) := by
  obtain ⟨l0, L', hL⟩ : ∃ l0 L', yamlLinesOf d = l0 :: L' := by
    unfold yamlLinesOf
    rcases hp : d.pre with _ | ⟨a, b⟩
    · exact ⟨_, _, rfl⟩
    · exact ⟨_, _, rfl⟩
  have hgood := yamlLines_good d hd
  have hshape := renderDoc_shape d
  have hdrop3 : (renderDoc d).drop 3 =
      flLines (yamlLinesOf d) ++ ((nl :: dashes) ++ (nl :: d.body)) := by
    rw [hshape]
    show nl :: (blockOf (yamlLinesOf d) ++ (dashes ++ nl :: d.body)) =
      flLines (yamlLinesOf d) ++ ((nl :: dashes) ++ (nl :: d.body))
    rw [← List.cons_append, fl_block, List.append_assoc]
    simp
  have hpre3 : (chars "---").isPrefixOf (renderDoc d) = true := by
    rw [hshape]
    exact (isPrefixOf_eq _ _).mpr
      ⟨nl :: (blockOf (yamlLinesOf d) ++ (dashes ++ nl :: d.body)), rfl⟩
  have hfind : findSub ((renderDoc d).drop 3) (chars "\n---") =
      some (flLines (yamlLinesOf d)).length := by
    rw [hdrop3, show chars "\n---" = nl :: dashes from rfl]
    exact findSub_fl (yamlLinesOf d) (nl :: d.body) hgood
  have hpos : 1 ≤ (flLines (yamlLinesOf d)).length := by
    rw [hL]
    show 1 ≤ (nl :: (l0 ++ flLines L')).length
    simp
  have hfl1 : (flLines (yamlLinesOf d)).drop 1 = interNL (yamlLinesOf d) := by
    rw [hL]
    exact fl_eq_inter l0 L'
  have hslice : slice? ((renderDoc d).drop 3) 1 (flLines (yamlLinesOf d)).length =
      some (interNL (yamlLinesOf d)) := by
    unfold slice?
    rw [if_pos ⟨hpos, by rw [hdrop3]; simp⟩, hdrop3, List.take_left, hfl1]
  have hyaml : yamlParse (interNL (yamlLinesOf d)) = some (some d.entries) := by
    unfold yamlParse
    rw [splitNL_inter (yamlLinesOf d) (by rw [hL]; simp) (fun l hl => (hgood l hl).1)]
    unfold yamlLinesOf
    exact yamlScan_render d.pre d.entries d.post hd.1 hd.2.1 hd.2.2
  unfold parse
  rw [if_pos hpre3, hfind]
  show (match slice? ((renderDoc d).drop 3) 1 (flLines (yamlLinesOf d)).length with
        | none => (PRes.panics : PRes (Option Frontmatter))
        | some yamlContent =>
          match yamlParse yamlContent with
          | none => PRes.err FmErr.yamlErr
          | some dw =>
            PRes.ok (some { entries := dw.getD [], raw_yaml := yamlContent,
                            end_pos := 3 + (flLines (yamlLinesOf d)).length + 4 })) =
      PRes.ok (some { entries := d.entries, raw_yaml := interNL (yamlLinesOf d),
                      end_pos := 3 + (flLines (yamlLinesOf d)).length + 4 })
  rw [hslice]
  show (match yamlParse (interNL (yamlLinesOf d)) with
        | none => (PRes.err FmErr.yamlErr : PRes (Option Frontmatter))
        | some dw =>
          PRes.ok (some { entries := dw.getD [], raw_yaml := interNL (yamlLinesOf d),
                          end_pos := 3 + (flLines (yamlLinesOf d)).length + 4 })) =
      PRes.ok (some { entries := d.entries, raw_yaml := interNL (yamlLinesOf d),
                      end_pos := 3 + (flLines (yamlLinesOf d)).length + 4 })
  rw [hyaml]
  rfl

theorem add_entry_inner_split (x r pat h : List Char)
    (hf : findSub (x ++ (chars "driftwatcher:" ++ (nl :: r))) (chars "driftwatcher:") =
      some x.length) :
    add_entry_inner (x ++ (chars "driftwatcher:" ++ (nl :: r))) pat h =
      PRes.ok ((x ++ (chars "driftwatcher:" ++ [nl])) ++
        ((chars "  - \"" ++ pat ++ chars "\": " ++ h ++ [nl]) ++ r)) := by
  unfold add_entry_inner
  rw [hf]
  dsimp only
  rw [List.drop_left, findSub_notmem (chars "driftwatcher:") nl r (by decide)]
  dsimp only
  rw [if_pos (show x.length + (chars "driftwatcher:").length + 1 ≤
      (x ++ (chars "driftwatcher:" ++ (nl :: r))).length by
    simp only [List.length_append, List.length_cons]
    omega)]
  have hre : x ++ (chars "driftwatcher:" ++ (nl :: r)) =
      (x ++ (chars "driftwatcher:" ++ [nl])) ++ r := by
    simp [List.append_assoc]
  have hlen : (x ++ (chars "driftwatcher:" ++ [nl])).length =
      x.length + (chars "driftwatcher:").length + 1 := by
    simp only [List.length_append, List.length_cons, List.length_nil]
    omega
  rw [hre, List.take_left' hlen, List.drop_left' hlen]
  simp [List.append_assoc]

theorem newEntry_line (pat h : List Char) :
    chars "  - \"" ++ pat ++ chars "\": " ++ h ++ [nl] =
      renderEntryLine { pattern := pat, hash := some h } ++ [nl] := by
  rw [renderEntry_shape, show chars "  - \"" = [' ', ' ', '-', ' ', '"'] from rfl,
      show chars "\": " = ['"', ':', ' '] from rfl]
  simp

theorem add_entry_render (d : TrackedDoc) (pat h : List Char) (hd : GoodDoc d) :
    add_entry (renderDoc d) pat h =
      PRes.ok (renderDoc { pre := d.pre, entries := ⟨pat, some h⟩ :: d.entries,
                           post := d.post, body := d.body }) := by
  have hparse := parse_render d hd
  have hcontent : renderDoc d =
      blockOf (dashes :: d.pre) ++ (chars "driftwatcher:" ++
        (nl :: (blockOf (d.entries.map renderEntryLine ++ d.post) ++
          (dashes ++ nl :: d.body)))) := by
    rw [renderDoc_shape]
    unfold yamlLinesOf
    rw [blockOf_append]
    simp only [blockOf]
    simp [List.append_assoc]
  have hf' : findSub (blockOf (dashes :: d.pre) ++ (chars "driftwatcher:" ++
        (nl :: (blockOf (d.entries.map renderEntryLine ++ d.post) ++
          (dashes ++ nl :: d.body)))))
      (chars "driftwatcher:") = some (blockOf (dashes :: d.pre)).length := by
    rw [findSub_block_skip (dashes :: d.pre) (chars "driftwatcher:") _ (by decide) (by decide)
      (fun l hl => by
        rcases List.mem_cons.mp hl with rfl | h2
        · decide
        · exact (hd.1 l h2).2.2.1)]
    have h0 : findSub (chars "driftwatcher:" ++
        (nl :: (blockOf (d.entries.map renderEntryLine ++ d.post) ++
          (dashes ++ nl :: d.body))))
        (chars "driftwatcher:") = some 0 := findSub_zero ⟨_, rfl⟩
    rw [h0]
    simp
  have hdwt : Frontmatter.has_driftwatcher
      { entries := d.entries, raw_yaml := interNL (yamlLinesOf d),
        end_pos := 3 + (flLines (yamlLinesOf d)).length + 4 } = true := by
    unfold Frontmatter.has_driftwatcher
    have hc : containsSub (interNL (yamlLinesOf d)) (chars "driftwatcher:") = true := by
      apply containsSub_interNL_mem
      unfold yamlLinesOf
      exact List.mem_append_right _ (List.mem_cons_self _ _)
    simp [hc]
  unfold add_entry
  rw [hparse]
  dsimp only
  rw [if_pos hdwt, hcontent, add_entry_inner_split _ _ pat h hf', newEntry_line]
  rw [renderDoc_shape]
  unfold yamlLinesOf
  simp [blockOf_append, blockOf, List.append_assoc]

/-- C6 (counterexample): a tracked document whose title line contains the
substring `driftwatcher:` refutes the universal claim: `add_entry` locates
the insertion point with a raw substring search, splices the new entry
after the title line instead of after the reserved key's line, and the
re-parse fails with a YAML error instead of returning the inserted entry
first. -/
theorem add_entry_title_spliced :
    parse (chars "---\ntitle: \"driftwatcher: x\"\ndriftwatcher:\n---\nBody\n") =
      PRes.ok (some
        { entries := [],
          raw_yaml := chars "title: \"driftwatcher: x\"\ndriftwatcher:",
          end_pos := 46 }) ∧
    add_entry (chars "---\ntitle: \"driftwatcher: x\"\ndriftwatcher:\n---\nBody\n")
        (chars "p") (chars "h") =
      PRes.ok
        (chars "---\ntitle: \"driftwatcher: x\"\n  - \"p\": h\ndriftwatcher:\n---\nBody\n") ∧
    parse (chars "---\ntitle: \"driftwatcher: x\"\n  - \"p\": h\ndriftwatcher:\n---\nBody\n") =
      PRes.err FmErr.yamlErr := by decide

/-- C6 (amended): on tracked documents in the canonical form the tool
itself writes — entries at two-space indentation with double-quoted keys,
and no other line containing the substring `driftwatcher:` — `add_entry`
(the spec's `insert_entry`) followed by `parse` yields an entries list
whose first element is the inserted pattern with the given hash: the new
entry is spliced directly after the reserved key's line, prepended, not
appended. Outside that form the raw substring search can splice after the
wrong line and the re-parse fails. -/
theorem add_entry_parse_first (d : TrackedDoc) (pat h : List Char)
    (hd : GoodDoc d) (hp : GoodKey pat) (hv : GoodVal (some h)) :
    ∃ out fm, add_entry (renderDoc d) pat h = PRes.ok out ∧
      parse out = PRes.ok (some fm) ∧
      fm.entries = { pattern := pat, hash := some h } :: d.entries := by
  have hd' : GoodDoc { pre := d.pre, entries := ⟨pat, some h⟩ :: d.entries,
                       post := d.post, body := d.body } := by
    refine ⟨hd.1, ?_, hd.2.2⟩
    intro e hee
    rcases List.mem_cons.mp hee with rfl | h2
    · exact ⟨hp, hv⟩
    · exact hd.2.1 e h2
  exact ⟨_, _, add_entry_render d pat h hd, parse_render _ hd', rfl⟩

theorem add_entry_parse_first_inst :
    ∃ out fm,
      add_entry (renderDoc { pre := [], entries := [], post := [], body := [] })
          (chars "p") (chars "h") = PRes.ok out ∧
      parse out = PRes.ok (some fm) ∧
      fm.entries = [{ pattern := chars "p", hash := some (chars "h") }] :=
  add_entry_parse_first { pre := [], entries := [], post := [], body := [] }
    (chars "p") (chars "h")
    ⟨fun l hl => absurd hl (List.not_mem_nil l),
     fun e he => absurd he (List.not_mem_nil e),
     fun l hl => absurd hl (List.not_mem_nil l)⟩
    ⟨by decide, by decide, by decide⟩ ⟨by decide, by decide, by decide⟩
